import Mathlib

/-!
Verification of the jseq streaming JSON value assembler (bobg/jseq).

The development shallowly embeds the Go source of `jseq.go` (the version built
on the recursive `nextValue` with one-token lookahead, lines 429-680):

* `NewNumber`, `Number.Int`, `Number.Uint`, `Number.String` model the numeric
  canonicalization.  Go's `float64` is modelled by `GoFloat`: NaN, infinities,
  or a finite value carried as a rational.  Every finite `float64` is a
  rational, so universally quantified theorems over `GoFloat.finite` cover all
  real floats; concrete counterexamples only use values that are exactly
  representable (integers below 2^64).  The parsing of an integer number
  token by the external tokenizer (`jsontext.Token.Float`, backed by
  `strconv.ParseFloat`) is modelled by `nearestFloat64Int`: IEEE-754 binary64
  round-to-nearest, ties-to-even, for integers (the claims only need integer
  inputs).  Go constant-to-float conversions in `f >= math.MinInt64`,
  `f <= math.MaxInt64`, and `f <= math.MaxUint64` also round to the nearest
  float64 by the Go specification; the constants `float64MaxInt64` and
  `float64MaxUint64` are computed by that same rounding function.
* `Pointer.Locate` models the pointer lookup; `JValue.goNil` stands for the
  Go untyped nil interface value produced by a map miss (`m[key]`).
* `nextValF`, `objLoopF`, `arrLoopF`, `valuesF` model `nextValue` and the
  `values` loop.  The token stream is a list (next = head, peek = head
  without consuming); the assembly functions return the unconsumed suffix.
  Recursion is made structural with a fuel argument that strictly decreases
  on every call; `2 * tokens + 1` fuel is proved sufficient, and the
  `values`/`nextValue` wrappers supply it.  The consumer of the emitted
  sequence (the range-over-func `yield`) is modelled by a `Budget`:
  `none` consumes every emission, `some k` accepts `k` emissions and breaks
  out of its loop at the k-th, after which `yield` reports `false`.
* Go's `map[string]any` carries no iteration order; an assembled object is
  modelled canonically as a key-sorted association list (`mapInsert`
  maintains sortedness and overwrites duplicates), which identifies exactly
  the Go-map-equal objects.
* `scan` is a second definition, modelled from the specification's words
  (sections 4.1 and 7): a stack machine over open-composite frames that
  classifies a token stream as cleanly ended, truncated, or malformed.  It is
  compared with the assembler for the error-classification claims.
* `Batch` is the specification-side description of a depth-first emission
  batch: all descendants, children in encounter order, the completed value
  itself last.
-/

namespace Jseq

/-! ## Go float64 model -/

/-- Model of a Go `float64`: NaN, a signed infinity, or a finite value carried
as a rational number. -/
inductive GoFloat
  | nan
  | inf (neg : Bool)
  | finite (v : ℚ)
  deriving DecidableEq

/-- Model of `math.IsNaN`. -/
def GoFloat.isNaN : GoFloat → Bool
  | .nan => true
  | _ => false

/-- Model of `math.IsInf(f, 0)` (either sign). -/
def GoFloat.isInf : GoFloat → Bool
  | .inf _ => true
  | _ => false

/-- Model of `math.Round`: round to the nearest integer, halves away from
zero, i.e. `floor(v + 1/2)` for nonnegative `v` and `ceil(v - 1/2)`
otherwise.  Exact on the rationals, hence on every finite float64.  The two
floors are computed directly on the numerator and denominator —
`floor(v + 1/2) = (2 num + den) fdiv (2 den)` and
`ceil(v - 1/2) = -floor(1/2 - v) = -((den - 2 num) fdiv (2 den))` —
so that concrete instances reduce in the kernel (`Int.fdiv` is floor
division and the denominator is positive). -/
def roundHalfAway (v : ℚ) : ℚ :=
  if 0 ≤ v then ((2 * v.num + (v.den : ℤ)).fdiv (2 * (v.den : ℤ)) : ℤ)
  else ((-(((v.den : ℤ) - 2 * v.num).fdiv (2 * (v.den : ℤ)))) : ℤ)

/-- Base-2 logarithm with structural recursion on a fuel argument, so that
concrete instances reduce in the kernel (`Nat.log2` is defined by
well-founded recursion, which does not).  With fuel at least `n` it computes
`Nat.log2 n`. -/
def log2F : ℕ → ℕ → ℕ
  | 0, _ => 0
  | fuel + 1, n => if n ≤ 1 then 0 else log2F fuel (n / 2) + 1

/-- Floor of the base-2 logarithm. -/
def natLog2 (n : ℕ) : ℕ := log2F n n

/-- Nearest binary64 value to a natural number: round to the nearest multiple
of the unit in the last place (53 significant bits), ties to even.  Models
IEEE-754 round-to-nearest-even for integer inputs below the float64 overflow
threshold (ample for every input the claims use, which are at most 2^64). -/
def nearestFloat64Nat (n : ℕ) : ℕ :=
  if n ≤ 2 ^ 53 then n
  else
    let e := natLog2 n
    let k := e - 52
    let q := n / 2 ^ k
    let r := n % 2 ^ k
    let q' :=
      if 2 * r > 2 ^ k then q + 1
      else if 2 * r < 2 ^ k then q
      else if q % 2 = 0 then q else q + 1
    q' * 2 ^ k

/-- Nearest binary64 value to an integer (rounding is symmetric in sign). -/
def nearestFloat64Int (n : ℤ) : ℤ :=
  n.sign * (nearestFloat64Nat n.natAbs : ℤ)

/-- Value of the Go expression `float64(math.MaxInt64)`: the untyped constant
`2^63 - 1` is rounded to the nearest float64 when it meets the `float64`
operand of the comparison in `NewNumber` (Go spec, constant representability
for floating-point types).  Numerically this is `2^63`. -/
def float64MaxInt64 : ℚ := (nearestFloat64Nat (2 ^ 63 - 1) : ℕ)

/-- Value of the Go expression `float64(math.MinInt64)`: `-2^63`, exactly
representable. -/
def float64MinInt64 : ℚ := ((-(2 ^ 63) : ℤ) : ℚ)

/-- Value of the Go expression `float64(math.MaxUint64)`: `2^64 - 1` rounded
to the nearest float64, numerically `2^64`. -/
def float64MaxUint64 : ℚ := (nearestFloat64Nat (2 ^ 64 - 1) : ℕ)

/-! ## Numbers -/

/-- Model of `jseq.Number` (src/jseq.go 610-616): raw text, parsed float, and
optional compact integer representations.  The stored integers model Go's
`int64(f)` / `uint64(f)` conversions; they are only ever applied to a float
`f` with `Round(f) == f`, i.e. an integral rational, whose numerator is
exactly the truncated conversion result whenever the value fits the target
range.  When the range guard in `NewNumber` erroneously admits an
out-of-range float (see the C3 analysis) the Go conversion result is
implementation-defined, and no theorem below depends on the stored value in
that situation, only on whether a representation was recorded. -/
structure Number where
  raw : String
  f : GoFloat
  i : Option ℤ
  u : Option ℤ
  deriving DecidableEq

/-- Model of a number token: its raw text together with the float64 that the
external tokenizer's `Token.Float` reports for it. -/
structure NumTok where
  raw : String
  f : GoFloat
  deriving DecidableEq

/-- Model of `NewNumber` (src/jseq.go 659-675). -/
def NewNumber (tok : NumTok) : Number :=
  match tok.f with
  | .finite v =>
    if roundHalfAway v = v then
      { raw := tok.raw, f := tok.f
        i := if float64MinInt64 ≤ v ∧ v ≤ float64MaxInt64 then some v.num else none
        u := if 0 ≤ v ∧ v ≤ float64MaxUint64 then some v.num else none }
    else { raw := tok.raw, f := tok.f, i := none, u := none }
  | f => { raw := tok.raw, f := f, i := none, u := none }

/-- Model of `Number.Int` (src/jseq.go 621-626). -/
def Number.Int (n : Number) : ℤ × Bool :=
  match n.i with
  | none => (0, false)
  | some i => (i, true)

/-- Model of `Number.Uint` (src/jseq.go 630-635). -/
def Number.Uint (n : Number) : ℤ × Bool :=
  match n.u with
  | none => (0, false)
  | some u => (u, true)

/-- Model of `Number.Float` (src/jseq.go 638-640). -/
def Number.Float (n : Number) : GoFloat := n.f

/-- Model of `Number.String` (src/jseq.go 678-680). -/
def Number.String (n : Number) : String := n.raw

/-! ## Tokens and values -/

/-- Model of the tokens consumed by `Values`, classified by `jsontext.Kind`:
null, false, true, string, number, and the four structural tokens. -/
inductive Token
  | null
  | jfalse
  | jtrue
  | str (s : String)
  | num (t : NumTok)
  | objStart
  | objEnd
  | arrStart
  | arrEnd
  deriving DecidableEq

/-- Model of the assembled Go values: `Null{}`, booleans, strings, `Number`,
`[]any`, and `map[string]any`.  `goNil` is the Go untyped nil interface, which
assembly never produces but a map miss inside `Pointer.Locate` does.  An
object is the canonical key-sorted association list: Go maps have no
iteration order, so two objects are identified exactly when they are equal as
Go maps. -/
inductive JValue
  | goNil
  | null
  | bool (b : Bool)
  | str (s : String)
  | num (n : Number)
  | arr (xs : List JValue)
  | obj (m : List (String × JValue))

/-- Strict lexicographic order on character lists by code point, used only to
fix the canonical ordering of the association lists that model Go maps. -/
def charsLt : List Char → List Char → Bool
  | [], [] => false
  | [], _ :: _ => true
  | _ :: _, [] => false
  | a :: as, b :: bs =>
    a.toNat < b.toNat || (a.toNat = b.toNat && charsLt as bs)

/-- Strict lexicographic order on strings by code point. -/
def strLt (a b : String) : Bool := charsLt a.data b.data

/-- Model of the Go map assignment `m[k] = v` on the canonical key-sorted
association list: overwrite an existing binding, otherwise insert sorted. -/
def mapInsert (m : List (String × JValue)) (k : String) (v : JValue) :
    List (String × JValue) :=
  match m with
  | [] => [(k, v)]
  | (k', v') :: rest =>
    if strLt k k' then (k, v) :: (k', v') :: rest
    else if k = k' then (k, v) :: rest
    else (k', v') :: mapInsert rest k v

/-- Model of the Go map read `m[k]`: the bound value, or the zero value of
`any` (nil) when the key is absent. -/
def mapGet (m : List (String × JValue)) (k : String) : JValue :=
  match m with
  | [] => .goNil
  | (k', v') :: rest => if k = k' then v' else mapGet rest k

/-- Key-membership in the association list modelling a Go map. -/
def mapHasKey (m : List (String × JValue)) (k : String) : Bool :=
  match m with
  | [] => false
  | (k', _) :: rest => k = k' || mapHasKey rest k

/-! ## Pointers and Locate -/

/-- One segment of a `jseq.Pointer` (a Go `[]any`): an object key (string),
an array index (Go `int`, so possibly negative), or a value of any other
dynamic type. -/
inductive Seg
  | key (k : String)
  | idx (n : ℤ)
  | other
  deriving DecidableEq

/-- Model of `jseq.Pointer` (src/jseq.go 562). -/
abbrev Pointer := List Seg

/-- The error cases of `Pointer.Locate`, one per `fmt.Errorf` site
(src/jseq.go 590, 597, 599, 602). -/
inductive LocErr
  | keyOnNonObject (k : String)
  | idxOutOfBounds (n : ℤ)
  | idxOnNonArray (n : ℤ)
  | badSeg
  deriving DecidableEq

/-- Model of `Pointer.Locate` (src/jseq.go 581-604). -/
def Pointer.Locate : Pointer → JValue → Except LocErr JValue
  | [], val => .ok val
  | .key k :: rest, val =>
    match val with
    | .obj m => Pointer.Locate rest (mapGet m k)
    | _ => .error (.keyOnNonObject k)
  | .idx n :: rest, val =>
    match val with
    | .arr a =>
      if h : 0 ≤ n ∧ n < (a.length : ℤ) then
        Pointer.Locate rest (a.get ⟨n.toNat, by omega⟩)
      else .error (.idxOutOfBounds n)
    | _ => .error (.idxOnNonArray n)
  | .other :: _, _ => .error .badSeg

/-! ## The consumer model -/

/-- Model of the consumer driving the emitted sequence: `none` consumes every
emission; `some k` accepts `k` emissions and breaks out of its loop while
handling the k-th, so that the k-th `yield` call delivers its pair and then
reports `false` (Go range-over-func semantics). -/
abbrev Budget := Option ℕ

/-- One emitted pair. -/
abbrev Emission := Pointer × JValue

/-- Model of one `yield(pointer, val)` call: the delivered emissions (one or,
once the consumer has stopped, none), the consumer state afterwards, and the
boolean that `yield` returns. -/
def doYield (b : Budget) (p : Pointer) (v : JValue) :
    List Emission × Budget × Bool :=
  match b with
  | none => ([(p, v)], none, true)
  | some 0 => ([], some 0, false)
  | some (k + 1) => ([(p, v)], some k, k != 0)

/-! ## The assembler -/

/-- The error results of `nextValue`, one per `errors`/`fmt.Errorf` site.
`truncated` is `io.ErrUnexpectedEOF`; the `errors.Wrapf` context added at
src/jseq.go 507 and 539 preserves error identity under `errors.Is`, so the
model keeps the wrapped error itself. -/
inductive AsmErr
  | truncated
  | closeBrace
  | closeBracket
  | wantKey (t : Token)
  deriving DecidableEq

/-- The `(any, bool, error)` result of `nextValue`: a completed value with
the boolean that the last `yield` returned, `io.EOF` on an empty stream, an
error, or the out-of-fuel sentinel (proved unreachable with adequate fuel). -/
inductive NVOut
  | done (v : JValue) (cont : Bool)
  | eof
  | fail (e : AsmErr)
  | fuelOut

/-- Full result of a model assembly call: outcome, unconsumed token suffix,
consumer state, and the emissions delivered (in order). -/
structure NVRes where
  out : NVOut
  rem : List Token
  budget : Budget
  emits : List Emission

mutual

/-- Embedding of `nextValue` (src/jseq.go 456-553).  The head of `toks` is
the `next()` token; fuel decreases on every call. -/
def nextValF : ℕ → List Token → Pointer → Budget → NVRes
  | 0, toks, _, b => ⟨.fuelOut, toks, b, []⟩
  | _ + 1, [], _, b => ⟨.eof, [], b, []⟩
  | fuel + 1, token :: rest, ptr, b =>
    match token with
    | .null =>
      let y := doYield b ptr .null
      ⟨.done .null y.2.2, rest, y.2.1, y.1⟩
    | .jfalse =>
      let y := doYield b ptr (.bool false)
      ⟨.done (.bool false) y.2.2, rest, y.2.1, y.1⟩
    | .jtrue =>
      let y := doYield b ptr (.bool true)
      ⟨.done (.bool true) y.2.2, rest, y.2.1, y.1⟩
    | .str s =>
      let y := doYield b ptr (.str s)
      ⟨.done (.str s) y.2.2, rest, y.2.1, y.1⟩
    | .num t =>
      let y := doYield b ptr (.num (NewNumber t))
      ⟨.done (.num (NewNumber t)) y.2.2, rest, y.2.1, y.1⟩
    | .objStart => objLoopF fuel rest ptr b []
    | .objEnd => ⟨.fail .closeBrace, rest, b, []⟩
    | .arrStart => arrLoopF fuel rest ptr b []
    | .arrEnd => ⟨.fail .closeBracket, rest, b, []⟩

/-- Embedding of the object loop of `nextValue` (src/jseq.go 486-517).  The
head of `toks` is the peeked token; `acc` is the map built so far. -/
def objLoopF : ℕ → List Token → Pointer → Budget → List (String × JValue) → NVRes
  | 0, toks, _, b, _ => ⟨.fuelOut, toks, b, []⟩
  | _ + 1, [], _, b, _ => ⟨.fail .truncated, [], b, []⟩
  | fuel + 1, peeked :: rest, ptr, b, acc =>
    match peeked with
    | .objEnd =>
      let y := doYield b ptr (.obj acc)
      ⟨.done (.obj acc) y.2.2, rest, y.2.1, y.1⟩
    | .str key =>
      let r := nextValF fuel rest (ptr ++ [.key key]) b
      match r.out with
      | .eof => ⟨.fail .truncated, r.rem, r.budget, r.emits⟩
      | .fail e => ⟨.fail e, r.rem, r.budget, r.emits⟩
      | .fuelOut => ⟨.fuelOut, r.rem, r.budget, r.emits⟩
      | .done v ok =>
        if ok then
          let r2 := objLoopF fuel r.rem ptr r.budget (mapInsert acc key v)
          ⟨r2.out, r2.rem, r2.budget, r.emits ++ r2.emits⟩
        else ⟨.done .goNil false, r.rem, r.budget, r.emits⟩
    | t => ⟨.fail (.wantKey t), t :: rest, b, []⟩

/-- Embedding of the array loop of `nextValue` (src/jseq.go 522-545).  The
head of `toks` is the peeked token; `acc` holds the elements built so far. -/
def arrLoopF : ℕ → List Token → Pointer → Budget → List JValue → NVRes
  | 0, toks, _, b, _ => ⟨.fuelOut, toks, b, []⟩
  | _ + 1, [], _, b, _ => ⟨.fail .truncated, [], b, []⟩
  | fuel + 1, peeked :: rest, ptr, b, acc =>
    if peeked = .arrEnd then
      let y := doYield b ptr (.arr acc)
      ⟨.done (.arr acc) y.2.2, rest, y.2.1, y.1⟩
    else
      let r := nextValF fuel (peeked :: rest) (ptr ++ [.idx (acc.length : ℤ)]) b
      match r.out with
      | .eof => ⟨.fail .truncated, r.rem, r.budget, r.emits⟩
      | .fail e => ⟨.fail e, r.rem, r.budget, r.emits⟩
      | .fuelOut => ⟨.fuelOut, r.rem, r.budget, r.emits⟩
      | .done v ok =>
        if ok then
          let r2 := arrLoopF fuel r.rem ptr r.budget (acc ++ [v])
          ⟨r2.out, r2.rem, r2.budget, r.emits ++ r2.emits⟩
        else ⟨.done .goNil false, r.rem, r.budget, r.emits⟩

end

/-- Result of the top-level `values` loop: the out-of-band error, the final
consumer state, the emissions, and an adequate-fuel marker (proved `true`
whenever the wrapper below is used). -/
structure VRes where
  err : Option AsmErr
  budget : Budget
  emits : List Emission
  fuelOk : Bool

/-- Embedding of `values` (src/jseq.go 441-454): assemble top-level values at
the empty pointer until end of input, a consumer stop, or an error.  `io.EOF`
from the very first token of a top-level value ends the sequence cleanly. -/
def valuesF : ℕ → List Token → Budget → VRes
  | 0, _, b => ⟨none, b, [], false⟩
  | fuel + 1, toks, b =>
    let r := nextValF (2 * toks.length + 1) toks [] b
    match r.out with
    | .eof => ⟨none, r.budget, r.emits, true⟩
    | .fail e => ⟨some e, r.budget, r.emits, true⟩
    | .fuelOut => ⟨none, r.budget, r.emits, false⟩
    | .done _ ok =>
      if ok then
        let r2 := valuesF fuel r.rem r.budget
        ⟨r2.err, r2.budget, r.emits ++ r2.emits, r2.fuelOk⟩
      else ⟨none, r.budget, r.emits, true⟩

/-- Model of `Values` applied to a finite token stream. -/
def values (toks : List Token) (b : Budget) : VRes :=
  valuesF (toks.length + 1) toks b

/-- Model of a single `nextValue` call with adequate fuel. -/
def nextValue (toks : List Token) (ptr : Pointer) (b : Budget) : NVRes :=
  nextValF (2 * toks.length + 1) toks ptr b

/-! ## Specification-side token-stream classification

Modelled from the spec: sections 4.1 and 7 describe, independently of the
assembler, when a token stream is malformed ("unexpected closing token",
"expected string key"), when it is truncated ("input ends while one or more
composites are still open", including an object awaiting the value for a
key), and when it ends cleanly between top-level values.  The stack machine
below is that description: a stack of open-composite frames, with an object
frame recording whether it awaits a key or a value. -/

/-- One open composite on the scanner's stack: an open array, an open object
awaiting a key, or an open object awaiting the value for its pending key. -/
inductive Frame
  | arr
  | objKey
  | objVal
  deriving DecidableEq

/-- The kind of a grammar violation: a closing token where a value was
expected, or a non-string non-closing token where an object key was
expected. -/
inductive MalKind
  | closing
  | key
  deriving DecidableEq

/-- Scanner verdict on a token stream: clean end with the number of completed
top-level values, truncation, or a malformed structure. -/
inductive ScanRes
  | clean (n : ℕ)
  | truncated
  | malformed (k : MalKind)
  deriving DecidableEq

/-- Stack update after a value completes in context `st`: an object awaiting
its pending key's value now awaits the next key; other contexts are
unchanged. -/
def popVal (st : List Frame) : List Frame :=
  match st with
  | .objVal :: rest => .objKey :: rest
  | _ => st

/-- A completed value is a top-level value exactly when the stack is empty. -/
def countTop (st : List Frame) : ℕ :=
  match st with
  | [] => 1
  | _ => 0

/-- Modelled from the spec: stack-machine classification of a token stream,
carrying the count of completed top-level values. -/
def scan : List Token → List Frame → ℕ → ScanRes
  | [], st, n => if st.isEmpty then .clean n else .truncated
  | t :: rest, .objKey :: stRest, n =>
    match t with
    | .str _ => scan rest (.objVal :: stRest) n
    | .objEnd => scan rest (popVal stRest) (n + countTop stRest)
    | _ => .malformed .key
  | t :: rest, st, n =>
    match t with
    | .null | .jfalse | .jtrue | .str _ | .num _ =>
      scan rest (popVal st) (n + countTop st)
    | .objStart => scan rest (.objKey :: st) n
    | .arrStart => scan rest (.arr :: st) n
    | .arrEnd =>
      match st with
      | .arr :: stRest => scan rest (popVal stRest) (n + countTop stRest)
      | _ => .malformed .closing
    | .objEnd => .malformed .closing

/-! ## Specification-side depth-first emission batches -/

/-- A scalar emission: the values emitted for a single non-composite token. -/
def ScalarV : JValue → Prop
  | .null | .bool _ | .str _ | .num _ => True
  | _ => False

/-- Build the object value from the sequence of key/value insertions made
while assembling it (in encounter order). -/
def buildObj (acc : List (String × JValue))
    (cs : List (String × JValue × List Emission)) : List (String × JValue) :=
  cs.foldl (fun m c => mapInsert m c.1 c.2.1) acc

/-- Modelled from the spec: `Batch p v ems` says that `ems` is a depth-first
emission batch for the value `v` assembled at pointer `p` — for a composite,
the concatenation of full batches for its children in encounter order
(arrays indexed from 0, objects keyed by the encountered keys), followed by
the emission of the completed composite itself; for a scalar, the single
emission of that scalar.  This shape is exactly the ordering guarantee of
spec section 4.1: every descendant's emission occurs strictly before the
composite's own, siblings appear in encounter order, and a batch is
contiguous. -/
inductive Batch : Pointer → JValue → List Emission → Prop
  | scalar (p : Pointer) (v : JValue) : ScalarV v → Batch p v [(p, v)]
  | arr (p : Pointer) (cs : List (JValue × List Emission))
      (h : ∀ i (hi : i < cs.length),
        Batch (p ++ [.idx (i : ℤ)]) (cs.get ⟨i, hi⟩).1 (cs.get ⟨i, hi⟩).2) :
      Batch p (.arr (cs.map Prod.fst))
        ((cs.map Prod.snd).flatten ++ [(p, .arr (cs.map Prod.fst))])
  | obj (p : Pointer) (cs : List (String × JValue × List Emission))
      (h : ∀ i (hi : i < cs.length),
        Batch (p ++ [.key (cs.get ⟨i, hi⟩).1]) (cs.get ⟨i, hi⟩).2.1
          (cs.get ⟨i, hi⟩).2.2) :
      Batch p (.obj (buildObj [] cs))
        ((cs.map (fun c => c.2.2)).flatten ++ [(p, .obj (buildObj [] cs))])

/-- Tokens that assemble to a scalar value (one-token values). -/
def isScalarTok : Token → Bool
  | .null | .jfalse | .jtrue | .str _ | .num _ => true
  | _ => false

/-! ## Concrete inputs used by counterexamples and witnesses -/

/-- A number token for a small integer: such values are exactly representable
as float64, so the tokenizer reports them exactly. -/
def numTok (s : String) (n : ℤ) : NumTok := ⟨s, .finite (n : ℚ)⟩

/-- The token for the text `9223372036854775807` (INT64_MAX): the tokenizer's
float64 is the nearest binary64 value, `2^63`. -/
def tokMaxInt64 : NumTok :=
  ⟨"9223372036854775807", .finite ((nearestFloat64Int (2 ^ 63 - 1) : ℤ) : ℚ)⟩

/-- The token for the text `9223372036854775808` (2^63, exactly
representable). -/
def tokTwo63 : NumTok :=
  ⟨"9223372036854775808", .finite ((nearestFloat64Int (2 ^ 63) : ℤ) : ℚ)⟩

/-- The token for the text `18446744073709551616` (2^64 = UINT64_MAX + 1,
exactly representable). -/
def tokTwo64 : NumTok :=
  ⟨"18446744073709551616", .finite ((nearestFloat64Int (2 ^ 64) : ℤ) : ℚ)⟩

/-- Tokens of `{"a": 1, "a": 2}` — an object with a duplicate key. -/
def dupKeyToks : List Token :=
  [.objStart, .str "a", .num (numTok "1" 1), .str "a", .num (numTok "2" 2),
   .objEnd]

/-- Tokens of `{"b": 1, "a": 2}`. -/
def orderToksBA : List Token :=
  [.objStart, .str "b", .num (numTok "1" 1), .str "a", .num (numTok "2" 2),
   .objEnd]

/-- Tokens of `{"a": 2, "b": 1}`: same object as `orderToksBA` as a Go map,
with the opposite insertion order. -/
def orderToksAB : List Token :=
  [.objStart, .str "a", .num (numTok "2" 2), .str "b", .num (numTok "1" 1),
   .objEnd]

/-- Tokens of `[1, 2, 3]` — the spec's early-stop example input. -/
def arr123Toks : List Token :=
  [.arrStart, .num (numTok "1" 1), .num (numTok "2" 2), .num (numTok "3" 3),
   .arrEnd]

/-- Tokens of `{"hello": [1, 2]}` — the package documentation's example. -/
def helloToks : List Token :=
  [.objStart, .str "hello", .arrStart, .num (numTok "1" 1),
   .num (numTok "2" 2), .arrEnd, .objEnd]

/-! # Theorems -/

/-! ## Numeric canonicalization -/

theorem NewNumber_raw (tok : NumTok) : (NewNumber tok).raw = tok.raw := by
  rcases tok with ⟨raw, f⟩
  cases f with
  | nan => rfl
  | inf neg => rfl
  | finite v =>
    show (if roundHalfAway v = v then _ else _ : Number).raw = _
    split <;> rfl

theorem float64MaxInt64_eq : float64MaxInt64 = ((2 ^ 63 : ℕ) : ℚ) := by decide

theorem float64MaxUint64_eq : float64MaxUint64 = ((2 ^ 64 : ℕ) : ℚ) := by decide

/-- C4: for every number token, the produced `Number` preserves the original
raw text: `Number.String` returns it unchanged, whatever compact
representations were also computed. -/
theorem c4_raw_round_trip (tok : NumTok) : (NewNumber tok).String = tok.raw :=
  NewNumber_raw tok

/-- C3, behavior of the code at the claimed boundary inputs.  The claim (and
spec) says `18446744073709551616` (2^64 > UINT64_MAX) canonicalizes to a
float with neither integer representation; the code instead records an
unsigned representation, because in `f <= math.MaxUint64` the constant is
rounded up to the float64 value 2^64, which `f` equals.  The first conjunct
exhibits that divergence.  The remaining conjuncts document the neighboring
behavior: `9223372036854775807` and `9223372036854775808` parse to the same
float 2^63, and both receive a signed representation (the signed guard
`f <= math.MaxInt64` also rounds its bound up to 2^63, so Go computes the
out-of-range, implementation-defined `int64(2^63)`) as well as an unsigned
representation. -/
theorem c3_failing_eval :
    ((NewNumber tokTwo64).Uint).2 = true ∧
    (NewNumber tokTwo64).i = none ∧
    ((NewNumber tokMaxInt64).Int).2 = true ∧
    (NewNumber tokMaxInt64).u = some (2 ^ 63) ∧
    ((NewNumber tokTwo63).Int).2 = true ∧
    (NewNumber tokTwo63).u = some (2 ^ 63) := by decide

/-- C9: the signed and unsigned representations are not mutually exclusive:
for any number token whose float is finite, integral under `math.Round`, and
within `[0, INT64_MAX]`, both `Int` and `Uint` succeed and agree. -/
theorem c9_int_uint_not_exclusive (raw : String) (v : ℚ)
    (hr : roundHalfAway v = v) (h0 : 0 ≤ v)
    (h1 : v ≤ ((2 ^ 63 - 1 : ℤ) : ℚ)) :
    ((NewNumber ⟨raw, .finite v⟩).Int).2 = true ∧
    ((NewNumber ⟨raw, .finite v⟩).Uint).2 = true ∧
    ((NewNumber ⟨raw, .finite v⟩).Int).1 = ((NewNumber ⟨raw, .finite v⟩).Uint).1 := by
  have hmin : float64MinInt64 ≤ v := by
    have he : float64MinInt64 = ((-(2 ^ 63) : ℤ) : ℚ) := rfl
    rw [he]; push_cast; linarith
  have hmax : v ≤ float64MaxInt64 := by
    rw [float64MaxInt64_eq]; push_cast at h1 ⊢; linarith
  have humax : v ≤ float64MaxUint64 := by
    rw [float64MaxUint64_eq]; push_cast at h1 ⊢; linarith
  simp [NewNumber, hr, Number.Int, Number.Uint, hmin, hmax, h0, humax]

theorem c9_witness :
    ((NewNumber ⟨"5", .finite ((5 : ℤ) : ℚ)⟩).Int).2 = true ∧
    ((NewNumber ⟨"5", .finite ((5 : ℤ) : ℚ)⟩).Uint).2 = true ∧
    ((NewNumber ⟨"5", .finite ((5 : ℤ) : ℚ)⟩).Int).1 =
      ((NewNumber ⟨"5", .finite ((5 : ℤ) : ℚ)⟩).Uint).1 :=
  c9_int_uint_not_exclusive "5" ((5 : ℤ) : ℚ) (by decide) (by decide) (by decide)

/-! ## Pointer lookup -/

theorem mapGet_of_not_hasKey (m : List (String × JValue)) (k : String)
    (h : mapHasKey m k = false) : mapGet m k = .goNil := by
  induction m with
  | nil => rfl
  | cons kv rest ih =>
    obtain ⟨k', v'⟩ := kv
    simp only [mapHasKey, Bool.or_eq_false_iff, decide_eq_false_iff_not] at h
    simp [mapGet, h.1, ih h.2]

/-- C10: `Pointer.Locate` is a total function (it is defined for every
pointer and value and can produce no other outcome than those below), and:
the empty pointer returns the root unchanged; a negative index on an array
is an out-of-bounds error rather than a fault; an absent key does not error
but continues into the Go nil value; a segment of any other dynamic type is
an error. -/
theorem c10_locate_total :
    (∀ v : JValue, Pointer.Locate [] v = .ok v) ∧
    (∀ (n : ℤ) (rest : Pointer) (xs : List JValue), n < 0 →
      Pointer.Locate (.idx n :: rest) (.arr xs) = .error (.idxOutOfBounds n)) ∧
    (∀ (k : String) (rest : Pointer) (m : List (String × JValue)),
      mapHasKey m k = false →
      Pointer.Locate (.key k :: rest) (.obj m) = Pointer.Locate rest .goNil) ∧
    (∀ (rest : Pointer) (v : JValue),
      Pointer.Locate (.other :: rest) v = .error .badSeg) := by
  refine ⟨fun v => rfl, fun n rest xs hn => ?_, fun k rest m hm => ?_,
    fun rest v => rfl⟩
  · have hc : ¬(0 ≤ n ∧ n < (xs.length : ℤ)) := by omega
    simp [Pointer.Locate, hc]
  · simp [Pointer.Locate, mapGet_of_not_hasKey m k hm]

theorem c10_witness :
    Pointer.Locate [] JValue.null = .ok JValue.null ∧
    Pointer.Locate [.idx (-1)] (.arr []) = .error (.idxOutOfBounds (-1)) ∧
    Pointer.Locate [.key "a"] (.obj []) = Pointer.Locate [] .goNil ∧
    Pointer.Locate [.other] .null = .error .badSeg :=
  ⟨c10_locate_total.1 _,
   c10_locate_total.2.1 (-1) [] [] (by decide),
   c10_locate_total.2.2.1 "a" [] [] (by decide),
   c10_locate_total.2.2.2 [] .null⟩

/-! ## Assembled objects are Go maps -/

theorem charsLt_irrefl : ∀ l : List Char, charsLt l l = false
  | [] => rfl
  | a :: as => by simp [charsLt, charsLt_irrefl as]

theorem strLt_irrefl (s : String) : strLt s s = false :=
  charsLt_irrefl s.data

theorem mapInsert_mapInsert (m : List (String × JValue)) (k : String)
    (v1 v2 : JValue) :
    mapInsert (mapInsert m k v1) k v2 = mapInsert m k v2 := by
  induction m with
  | nil => simp [mapInsert, strLt_irrefl]
  | cons kv rest ih =>
    obtain ⟨k', v'⟩ := kv
    by_cases h1 : strLt k k' = true
    · simp [mapInsert, h1, strLt_irrefl]
    · by_cases h2 : k = k'
      · subst h2; simp [mapInsert, h1, strLt_irrefl]
      · simp [mapInsert, h1, h2, ih]

/-- C8, counterexample to "iterating an emitted object yields its keys in
first-insertion order".  The two inputs `{"b": 1, "a": 2}` and
`{"a": 2, "b": 1}` have opposite first-insertion orders, yet the code
assembles the one `map[string]any` value from both (a Go map carries no
insertion history; in the model both runs emit the identical canonical
object).  Iterating the emitted value therefore cannot yield the insertion
order of both runs — the emitted value does not determine it. -/
theorem c8_counterexample :
    (values orderToksBA none).emits.getLast? =
      some ([], .obj [("a", .num (NewNumber (numTok "2" 2))),
                      ("b", .num (NewNumber (numTok "1" 1)))]) ∧
    (values orderToksAB none).emits.getLast? =
      some ([], .obj [("a", .num (NewNumber (numTok "2" 2))),
                      ("b", .num (NewNumber (numTok "1" 1)))]) ∧
    (values orderToksBA none).err = none ∧ (values orderToksAB none).err = none :=
  ⟨rfl, rfl, by decide, by decide⟩

/-- C8 as amended: a duplicate key overwrites the value and keeps a single
binding for the key (`mapInsert` models the Go map assignment at
src/jseq.go 512), and the object emitted for `{"a": "x", "a": "y"}` maps
`"a"` to the last value assigned; the iteration order of an assembled object
is not determined by insertion history (Go map). -/
theorem c8_amended :
    (∀ (m : List (String × JValue)) (k : String) (v1 v2 : JValue),
      mapInsert (mapInsert m k v1) k v2 = mapInsert m k v2) ∧
    (values [.objStart, .str "a", .str "x", .str "a", .str "y", .objEnd]
      none).err = none ∧
    (values [.objStart, .str "a", .str "x", .str "a", .str "y", .objEnd]
      none).emits.getLast? = some ([], .obj [("a", .str "y")]) :=
  ⟨mapInsert_mapInsert, by decide, rfl⟩

/-! ## Assembler groundwork: token consumption, fuel adequacy, budgets -/

/-- Combined remainder bounds, by one fuel induction over the three mutual
assembly functions: the unconsumed suffix never grows; a completed value
consumed at least one token; `io.EOF` arises only on an empty stream; and
the loops never report `io.EOF` (they translate it to truncation). -/
theorem asmRem : ∀ fuel : ℕ,
    (∀ toks ptr b,
      (nextValF fuel toks ptr b).rem.length ≤ toks.length ∧
      (∀ v c, (nextValF fuel toks ptr b).out = .done v c →
        (nextValF fuel toks ptr b).rem.length < toks.length) ∧
      ((nextValF fuel toks ptr b).out = .eof → toks = [])) ∧
    (∀ toks ptr b acc,
      (objLoopF fuel toks ptr b acc).rem.length ≤ toks.length ∧
      (objLoopF fuel toks ptr b acc).out ≠ .eof) ∧
    (∀ toks ptr b acc,
      (arrLoopF fuel toks ptr b acc).rem.length ≤ toks.length ∧
      (arrLoopF fuel toks ptr b acc).out ≠ .eof) := by
  intro fuel
  induction fuel with
  | zero =>
    refine ⟨fun toks ptr b => ?_, fun toks ptr b acc => ?_,
      fun toks ptr b acc => ?_⟩ <;> simp [nextValF, objLoopF, arrLoopF]
  | succ fuel ih =>
    obtain ⟨ihV, ihO, ihA⟩ := ih
    refine ⟨fun toks ptr b => ?_, fun toks ptr b acc => ?_,
      fun toks ptr b acc => ?_⟩
    · cases toks with
      | nil => simp [nextValF]
      | cons t rest =>
        cases t
        case objStart =>
          simp only [nextValF]
          exact ⟨le_trans (ihO rest ptr b []).1 (Nat.le_succ _),
            fun v c _ => Nat.lt_succ_of_le (ihO rest ptr b []).1,
            fun h => absurd h (ihO rest ptr b []).2⟩
        case arrStart =>
          simp only [nextValF]
          exact ⟨le_trans (ihA rest ptr b []).1 (Nat.le_succ _),
            fun v c _ => Nat.lt_succ_of_le (ihA rest ptr b []).1,
            fun h => absurd h (ihA rest ptr b []).2⟩
        all_goals
          exact ⟨by simp [nextValF],
            fun v c h => by simp [nextValF],
            fun h => by simp [nextValF] at h⟩
    · cases toks with
      | nil => simp [objLoopF]
      | cons peeked rest =>
        cases peeked
        case str key =>
          simp only [objLoopF]
          split
          · exact ⟨le_trans (ihV rest (ptr ++ [.key key]) b).1 (Nat.le_succ _),
              by simp⟩
          · exact ⟨le_trans (ihV rest (ptr ++ [.key key]) b).1 (Nat.le_succ _),
              by simp⟩
          · exact ⟨le_trans (ihV rest (ptr ++ [.key key]) b).1 (Nat.le_succ _),
              by simp⟩
          · split
            · exact ⟨le_trans (le_trans (ihO _ ptr _ _).1
                  (ihV rest (ptr ++ [.key key]) b).1) (Nat.le_succ _),
                (ihO _ ptr _ _).2⟩
            · exact ⟨le_trans (ihV rest (ptr ++ [.key key]) b).1 (Nat.le_succ _),
                by simp⟩
        all_goals
          exact ⟨by simp [objLoopF], by simp [objLoopF]⟩
    · cases toks with
      | nil => simp [arrLoopF]
      | cons peeked rest =>
        simp only [arrLoopF]
        split
        · exact ⟨by simp, by simp⟩
        · split
          · exact ⟨(ihV (peeked :: rest) _ b).1, by simp⟩
          · exact ⟨(ihV (peeked :: rest) _ b).1, by simp⟩
          · exact ⟨(ihV (peeked :: rest) _ b).1, by simp⟩
          · split
            · exact ⟨le_trans (ihA _ ptr _ _).1 (ihV (peeked :: rest) _ b).1,
                (ihA _ ptr _ _).2⟩
            · exact ⟨(ihV (peeked :: rest) _ b).1, by simp⟩

/-- Fuel adequacy: the out-of-fuel sentinel never occurs once the fuel
exceeds twice the number of tokens (each token costs at most two calls). -/
theorem asmFuel : ∀ fuel : ℕ,
    (∀ toks ptr b, 2 * toks.length < fuel →
      (nextValF fuel toks ptr b).out ≠ .fuelOut) ∧
    (∀ toks ptr b acc, 2 * toks.length + 1 < fuel →
      (objLoopF fuel toks ptr b acc).out ≠ .fuelOut) ∧
    (∀ toks ptr b acc, 2 * toks.length + 1 < fuel →
      (arrLoopF fuel toks ptr b acc).out ≠ .fuelOut) := by
  intro fuel
  induction fuel with
  | zero =>
    exact ⟨fun toks ptr b h => absurd h (by omega),
      fun toks ptr b acc h => absurd h (by omega),
      fun toks ptr b acc h => absurd h (by omega)⟩
  | succ fuel ih =>
    obtain ⟨ihV, ihO, ihA⟩ := ih
    refine ⟨fun toks ptr b hf => ?_, fun toks ptr b acc hf => ?_,
      fun toks ptr b acc hf => ?_⟩
    · cases toks with
      | nil => simp [nextValF]
      | cons t rest =>
        simp only [List.length_cons] at hf
        cases t
        case objStart =>
          simp only [nextValF]
          exact ihO rest ptr b [] (by omega)
        case arrStart =>
          simp only [nextValF]
          exact ihA rest ptr b [] (by omega)
        all_goals simp [nextValF]
    · cases toks with
      | nil => simp [objLoopF]
      | cons peeked rest =>
        simp only [List.length_cons] at hf
        cases peeked
        case str key =>
          have hv : (nextValF fuel rest (ptr ++ [.key key]) b).out ≠ .fuelOut :=
            ihV rest (ptr ++ [.key key]) b (by omega)
          simp only [objLoopF]
          split
          · simp
          · simp
          · exact fun _ => hv (by assumption)
          · rename_i v ok heq
            split
            · refine ihO _ ptr _ _ ?_
              have hlt := ((asmRem fuel).1 rest (ptr ++ [.key key]) b).2.1 v ok heq
              omega
            · simp
        all_goals simp [objLoopF]
    · cases toks with
      | nil => simp [arrLoopF]
      | cons peeked rest =>
        simp only [List.length_cons] at hf

        have hv : ∀ p',
            (nextValF fuel (peeked :: rest) p' b).out ≠ .fuelOut :=
          fun p' => ihV (peeked :: rest) p' b (by simp; omega)
        simp only [arrLoopF]
        split
        · simp
        · split
          · simp
          · simp
          · exact fun _ => hv _ (by assumption)
          · rename_i v ok heq
            split
            · refine ihA _ ptr _ _ ?_
              have hlt := ((asmRem fuel).1 (peeked :: rest) _ b).2.1 v ok heq
              simp only [List.length_cons] at hlt
              omega
            · simp

/-- With the unlimited consumer (`Budget = none`) the consumer state stays
unlimited and no call reports a consumer stop. -/
theorem asmUnb : ∀ fuel : ℕ,
    (∀ toks ptr, (nextValF fuel toks ptr none).budget = none ∧
      ∀ v, (nextValF fuel toks ptr none).out ≠ .done v false) ∧
    (∀ toks ptr acc, (objLoopF fuel toks ptr none acc).budget = none ∧
      ∀ v, (objLoopF fuel toks ptr none acc).out ≠ .done v false) ∧
    (∀ toks ptr acc, (arrLoopF fuel toks ptr none acc).budget = none ∧
      ∀ v, (arrLoopF fuel toks ptr none acc).out ≠ .done v false) := by
  intro fuel
  induction fuel with
  | zero =>
    refine ⟨fun toks ptr => ?_, fun toks ptr acc => ?_, fun toks ptr acc => ?_⟩ <;>
      simp [nextValF, objLoopF, arrLoopF]
  | succ fuel ih =>
    obtain ⟨ihV, ihO, ihA⟩ := ih
    refine ⟨fun toks ptr => ?_, fun toks ptr acc => ?_, fun toks ptr acc => ?_⟩
    · cases toks with
      | nil => simp [nextValF]
      | cons t rest =>
        cases t
        case objStart => simpa only [nextValF] using ihO rest ptr []
        case arrStart => simpa only [nextValF] using ihA rest ptr []
        all_goals simp [nextValF, doYield]
    · cases toks with
      | nil => simp [objLoopF]
      | cons peeked rest =>
        cases peeked
        case str key =>
          simp only [objLoopF]
          have hu := ihV rest (ptr ++ [.key key])
          split
          · exact ⟨hu.1, by simp⟩
          · exact ⟨hu.1, by simp⟩
          · exact ⟨hu.1, by simp⟩
          · rename_i v ok heq
            split
            · rw [hu.1]
              exact ihO _ ptr _
            · rename_i hok
              have hf : ok = false := by revert hok; cases ok <;> simp
              rw [hf] at heq
              exact absurd heq (hu.2 v)
        all_goals simp [objLoopF, doYield]
    · cases toks with
      | nil => simp [arrLoopF]
      | cons peeked rest =>
        simp only [arrLoopF]
        split
        · simp [doYield]
        · have hu := ihV (peeked :: rest) (ptr ++ [.idx (acc.length : ℤ)])
          split
          · exact ⟨hu.1, by simp⟩
          · exact ⟨hu.1, by simp⟩
          · exact ⟨hu.1, by simp⟩
          · rename_i v ok heq
            split
            · rw [hu.1]
              exact ihA _ ptr _
            · rename_i hok
              have hf : ok = false := by revert hok; cases ok <;> simp
              rw [hf] at heq
              exact absurd heq (hu.2 v)

/-- With a finite consumer budget, the budget stays finite; and if it has
been exhausted after a call that began with a nonzero budget, the call ended
with the consumer stopping (`yield` returned false), never with an error. -/
theorem asmBudget0 : ∀ fuel : ℕ,
    (∀ toks ptr k, (∃ k', (nextValF fuel toks ptr (some k)).budget = some k') ∧
      (k ≠ 0 → (nextValF fuel toks ptr (some k)).budget = some 0 →
        ∃ v, (nextValF fuel toks ptr (some k)).out = .done v false)) ∧
    (∀ toks ptr k acc, (∃ k', (objLoopF fuel toks ptr (some k) acc).budget = some k') ∧
      (k ≠ 0 → (objLoopF fuel toks ptr (some k) acc).budget = some 0 →
        ∃ v, (objLoopF fuel toks ptr (some k) acc).out = .done v false)) ∧
    (∀ toks ptr k acc, (∃ k', (arrLoopF fuel toks ptr (some k) acc).budget = some k') ∧
      (k ≠ 0 → (arrLoopF fuel toks ptr (some k) acc).budget = some 0 →
        ∃ v, (arrLoopF fuel toks ptr (some k) acc).out = .done v false)) := by
  intro fuel
  induction fuel with
  | zero =>
    refine ⟨fun toks ptr k => ?_, fun toks ptr k acc => ?_,
      fun toks ptr k acc => ?_⟩ <;>
      simp [nextValF, objLoopF, arrLoopF]
  | succ fuel ih =>
    obtain ⟨ihV, ihO, ihA⟩ := ih
    refine ⟨fun toks ptr k => ?_, fun toks ptr k acc => ?_,
      fun toks ptr k acc => ?_⟩
    · cases toks with
      | nil =>
        exact ⟨⟨k, by simp [nextValF]⟩,
          fun hk h0 => absurd (by simpa [nextValF] using h0) hk⟩
      | cons t rest =>
        cases t
        case objStart => simpa only [nextValF] using ihO rest ptr k []
        case arrStart => simpa only [nextValF] using ihA rest ptr k []
        case objEnd =>
          exact ⟨⟨k, by simp [nextValF]⟩,
            fun hk h0 => absurd (by simpa [nextValF] using h0) hk⟩
        case arrEnd =>
          exact ⟨⟨k, by simp [nextValF]⟩,
            fun hk h0 => absurd (by simpa [nextValF] using h0) hk⟩
        all_goals
          cases k with
          | zero => exact ⟨⟨0, by simp [nextValF, doYield]⟩, fun hk => absurd rfl hk⟩
          | succ m =>
            refine ⟨⟨m, by simp [nextValF, doYield]⟩, fun hk h0 => ?_⟩
            have hm : m = 0 := by simpa [nextValF, doYield] using h0
            subst hm
            exact ⟨_, rfl⟩
    · cases toks with
      | nil =>
        exact ⟨⟨k, by simp [objLoopF]⟩,
          fun hk h0 => absurd (by simpa [objLoopF] using h0) hk⟩
      | cons peeked rest =>
        cases peeked
        case objEnd =>
          cases k with
          | zero => exact ⟨⟨0, by simp [objLoopF, doYield]⟩, fun hk => absurd rfl hk⟩
          | succ m =>
            refine ⟨⟨m, by simp [objLoopF, doYield]⟩, fun hk h0 => ?_⟩
            have hm : m = 0 := by simpa [objLoopF, doYield] using h0
            subst hm
            exact ⟨_, rfl⟩
        case str key =>
          simp only [objLoopF]
          have hb := ihV rest (ptr ++ [.key key]) k
          obtain ⟨k1, hk1⟩ := hb.1
          split
          · rename_i heq
            refine ⟨⟨k1, hk1⟩, fun hk h0 => ?_⟩
            obtain ⟨v', hv'⟩ := hb.2 hk h0
            rw [heq] at hv'
            simp at hv'
          · rename_i e heq
            refine ⟨⟨k1, hk1⟩, fun hk h0 => ?_⟩
            obtain ⟨v', hv'⟩ := hb.2 hk h0
            rw [heq] at hv'
            simp at hv'
          · rename_i heq
            refine ⟨⟨k1, hk1⟩, fun hk h0 => ?_⟩
            obtain ⟨v', hv'⟩ := hb.2 hk h0
            rw [heq] at hv'
            simp at hv'
          · rename_i v ok heq
            split
            · rename_i hok
              rw [hk1]
              refine ⟨(ihO _ ptr k1 _).1, fun hk h0 => ?_⟩
              have hk1ne : k1 ≠ 0 := by
                intro hz
                obtain ⟨v', hv'⟩ := hb.2 hk (by rw [hk1, hz])
                rw [heq] at hv'
                simp [hok] at hv'
              exact (ihO _ ptr k1 _).2 hk1ne h0
            · exact ⟨⟨k1, hk1⟩, fun hk h0 => ⟨.goNil, rfl⟩⟩
        all_goals
          exact ⟨⟨k, by simp [objLoopF]⟩,
            fun hk h0 => absurd (by simpa [objLoopF] using h0) hk⟩
    · cases toks with
      | nil =>
        exact ⟨⟨k, by simp [arrLoopF]⟩,
          fun hk h0 => absurd (by simpa [arrLoopF] using h0) hk⟩
      | cons peeked rest =>
        simp only [arrLoopF]
        split
        · cases k with
          | zero => exact ⟨⟨0, by simp [doYield]⟩, fun hk => absurd rfl hk⟩
          | succ m =>
            refine ⟨⟨m, by simp [doYield]⟩, fun hk h0 => ?_⟩
            have hm : m = 0 := by simpa [doYield] using h0
            subst hm
            exact ⟨_, rfl⟩
        · have hb := ihV (peeked :: rest) (ptr ++ [.idx (acc.length : ℤ)]) k
          obtain ⟨k1, hk1⟩ := hb.1
          split
          · rename_i heq
            refine ⟨⟨k1, hk1⟩, fun hk h0 => ?_⟩
            obtain ⟨v', hv'⟩ := hb.2 hk h0
            rw [heq] at hv'
            simp at hv'
          · rename_i e heq
            refine ⟨⟨k1, hk1⟩, fun hk h0 => ?_⟩
            obtain ⟨v', hv'⟩ := hb.2 hk h0
            rw [heq] at hv'
            simp at hv'
          · rename_i heq
            refine ⟨⟨k1, hk1⟩, fun hk h0 => ?_⟩
            obtain ⟨v', hv'⟩ := hb.2 hk h0
            rw [heq] at hv'
            simp at hv'
          · rename_i v ok heq
            split
            · rename_i hok
              rw [hk1]
              refine ⟨(ihA _ ptr k1 _).1, fun hk h0 => ?_⟩
              have hk1ne : k1 ≠ 0 := by
                intro hz
                obtain ⟨v', hv'⟩ := hb.2 hk (by rw [hk1, hz])
                rw [heq] at hv'
                simp [hok] at hv'
              exact (ihA _ ptr k1 _).2 hk1ne h0
            · exact ⟨⟨k1, hk1⟩, fun hk h0 => ⟨.goNil, rfl⟩⟩

/-- The `values` loop never runs out of loop fuel once it exceeds the number
of tokens (each completed top-level value consumes at least one token). -/
theorem valuesFuelOk : ∀ (fuelL : ℕ) (toks : List Token) (b : Budget),
    toks.length < fuelL → (valuesF fuelL toks b).fuelOk = true := by
  intro fuelL
  induction fuelL with
  | zero => exact fun toks b h => absurd h (by omega)
  | succ fuelL ih =>
    intro toks b hlen
    simp only [valuesF]
    split
    · rfl
    · rfl
    · rename_i heq
      exact absurd heq ((asmFuel (2 * toks.length + 1)).1 toks [] b (by omega))
    · rename_i v ok heq
      split
      · refine ih _ _ ?_
        have := ((asmRem (2 * toks.length + 1)).1 toks [] b).2.1 v ok heq
        omega
      · rfl

/-- If a `values` run started with a nonzero finite consumer budget and ended
with the budget exhausted, the run ended because the consumer stopped, and
no error is reported. -/
theorem valuesBudget0 : ∀ (fuelL : ℕ) (toks : List Token) (k : ℕ), k ≠ 0 →
    (valuesF fuelL toks (some k)).budget = some 0 →
    (valuesF fuelL toks (some k)).err = none := by
  intro fuelL
  induction fuelL with
  | zero => intro toks k hk h0; rfl
  | succ fuelL ih =>
    intro toks k hk h0
    rw [valuesF] at h0 ⊢
    revert h0
    split
    · intro h0
      rfl
    · rename_i e heq
      intro h0
      obtain ⟨v', hv'⟩ := ((asmBudget0 (2 * toks.length + 1)).1 toks [] k).2 hk h0
      rw [heq] at hv'
      simp at hv'
    · intro h0
      rfl
    · rename_i v ok heq
      split
      · rename_i hok
        intro h0
        obtain ⟨k1, hk1⟩ := ((asmBudget0 (2 * toks.length + 1)).1 toks [] k).1
        have hk1ne : k1 ≠ 0 := by
          intro hz
          obtain ⟨v', hv'⟩ :=
            ((asmBudget0 (2 * toks.length + 1)).1 toks [] k).2 hk (by rw [hk1, hz])
          rw [heq] at hv'
          simp [hok] at hv'
        rw [hk1] at h0 ⊢
        exact ih _ k1 hk1ne h0
      · intro h0
        rfl

/-- C7: stopping the consumer after an emission is clean.  Concretely, taking
only the first emission of `[1, 2, 3]` delivers exactly `(/0, 1)`, reports no
error, and reads no token beyond the first array element; and in general, any
run whose finite budget was exhausted (the consumer broke out of its loop)
reports no error. -/
theorem c7_early_stop :
    (values arr123Toks (some 1)).err = none ∧
    (values arr123Toks (some 1)).emits =
      [([.idx 0], .num (NewNumber (numTok "1" 1)))] ∧
    (nextValue arr123Toks [] (some 1)).rem =
      [.num (numTok "2" 2), .num (numTok "3" 3), .arrEnd] ∧
    (∀ (toks : List Token) (k : ℕ), k ≠ 0 →
      (values toks (some k)).budget = some 0 →
      (values toks (some k)).err = none) :=
  ⟨by decide, rfl, rfl,
   fun toks k hk h0 => valuesBudget0 (toks.length + 1) toks k hk h0⟩

theorem c7_witness :
    (values arr123Toks (some 1)).err = none :=
  c7_early_stop.2.2.2 arr123Toks 1 (by decide) (by decide)

/-! ## Scanner unfolding lemmas (value mode vs key mode) -/

theorem scan_nil (st : List Frame) (n : ℕ) :
    scan [] st n = if st.isEmpty then .clean n else .truncated := rfl

theorem scan_scalar (t : Token) (ht : isScalarTok t = true) (rest : List Token)
    (st : List Frame) (hst : st.head? ≠ some Frame.objKey) (n : ℕ) :
    scan (t :: rest) st n = scan rest (popVal st) (n + countTop st) := by
  cases st with
  | nil => cases t <;> first | rfl | simp [isScalarTok] at ht
  | cons f st' =>
    cases f
    · cases t <;> first | rfl | simp [isScalarTok] at ht
    · exact absurd rfl hst
    · cases t <;> first | rfl | simp [isScalarTok] at ht

theorem scan_objStart (rest : List Token) (st : List Frame)
    (hst : st.head? ≠ some Frame.objKey) (n : ℕ) :
    scan (.objStart :: rest) st n = scan rest (.objKey :: st) n := by
  cases st with
  | nil => rfl
  | cons f st' => cases f <;> first | rfl | exact absurd rfl hst

theorem scan_arrStart (rest : List Token) (st : List Frame)
    (hst : st.head? ≠ some Frame.objKey) (n : ℕ) :
    scan (.arrStart :: rest) st n = scan rest (.arr :: st) n := by
  cases st with
  | nil => rfl
  | cons f st' => cases f <;> first | rfl | exact absurd rfl hst

theorem scan_objEnd_val (rest : List Token) (st : List Frame)
    (hst : st.head? ≠ some Frame.objKey) (n : ℕ) :
    scan (.objEnd :: rest) st n = .malformed .closing := by
  cases st with
  | nil => rfl
  | cons f st' => cases f <;> first | rfl | exact absurd rfl hst

theorem scan_arrEnd_val (rest : List Token) (st : List Frame)
    (hst : st.head? ≠ some Frame.objKey) (hsa : st.head? ≠ some Frame.arr)
    (n : ℕ) :
    scan (.arrEnd :: rest) st n = .malformed .closing := by
  cases st with
  | nil => rfl
  | cons f st' =>
    cases f
    · exact absurd rfl hsa
    · exact absurd rfl hst
    · rfl

theorem scan_arrEnd_arr (rest : List Token) (st' : List Frame) (n : ℕ) :
    scan (.arrEnd :: rest) (.arr :: st') n =
      scan rest (popVal st') (n + countTop st') := rfl

theorem scan_key_str (s : String) (rest : List Token) (st' : List Frame)
    (n : ℕ) :
    scan (.str s :: rest) (.objKey :: st') n =
      scan rest (.objVal :: st') n := rfl

theorem scan_key_objEnd (rest : List Token) (st' : List Frame) (n : ℕ) :
    scan (.objEnd :: rest) (.objKey :: st') n =
      scan rest (popVal st') (n + countTop st') := rfl

theorem scan_key_other (t : Token) (ht : isScalarTok t = true ∨ t = .objStart ∨ t = .arrStart ∨ t = .arrEnd)
    (hts : ∀ s, t ≠ .str s) (rest : List Token) (st' : List Frame) (n : ℕ) :
    scan (t :: rest) (.objKey :: st') n = .malformed .key := by
  cases t <;> first | rfl | (exact absurd rfl (hts _)) | simp [isScalarTok] at ht

/-! ## Equivalence of the assembler's error classification with the scanner -/

/-- Agreement of the recursive assembler with the specification's stack
machine, for the unlimited consumer: a completed value advances the scanner
state by a value completion; each assembler error matches the scanner's
verdict for the remaining input.  The statement for `nextValF` holds in any
value-expecting scanner context (stack top not awaiting a key, and if the
top is an open array the next token is not its closing bracket); the loop
statements hold with the matching open frame pushed. -/
theorem scanAgree : ∀ fuel : ℕ,
    (∀ toks ptr st n, st.head? ≠ some Frame.objKey →
      (st.head? = some Frame.arr → toks.head? ≠ some Token.arrEnd) →
      ((∀ v, (nextValF fuel toks ptr none).out = .done v true →
        scan toks st n =
          scan (nextValF fuel toks ptr none).rem (popVal st) (n + countTop st)) ∧
       ((nextValF fuel toks ptr none).out = .fail .truncated →
         scan toks st n = .truncated) ∧
       ((nextValF fuel toks ptr none).out = .fail .closeBrace →
         scan toks st n = .malformed .closing) ∧
       ((nextValF fuel toks ptr none).out = .fail .closeBracket →
         scan toks st n = .malformed .closing) ∧
       (∀ t, (nextValF fuel toks ptr none).out = .fail (.wantKey t) →
         scan toks st n = .malformed .key))) ∧
    (∀ toks ptr st' n acc,
      ((∀ v, (objLoopF fuel toks ptr none acc).out = .done v true →
        scan toks (.objKey :: st') n =
          scan (objLoopF fuel toks ptr none acc).rem (popVal st') (n + countTop st')) ∧
       ((objLoopF fuel toks ptr none acc).out = .fail .truncated →
         scan toks (.objKey :: st') n = .truncated) ∧
       ((objLoopF fuel toks ptr none acc).out = .fail .closeBrace →
         scan toks (.objKey :: st') n = .malformed .closing) ∧
       ((objLoopF fuel toks ptr none acc).out = .fail .closeBracket →
         scan toks (.objKey :: st') n = .malformed .closing) ∧
       (∀ t, (objLoopF fuel toks ptr none acc).out = .fail (.wantKey t) →
         scan toks (.objKey :: st') n = .malformed .key))) ∧
    (∀ toks ptr st' n acc,
      ((∀ v, (arrLoopF fuel toks ptr none acc).out = .done v true →
        scan toks (.arr :: st') n =
          scan (arrLoopF fuel toks ptr none acc).rem (popVal st') (n + countTop st')) ∧
       ((arrLoopF fuel toks ptr none acc).out = .fail .truncated →
         scan toks (.arr :: st') n = .truncated) ∧
       ((arrLoopF fuel toks ptr none acc).out = .fail .closeBrace →
         scan toks (.arr :: st') n = .malformed .closing) ∧
       ((arrLoopF fuel toks ptr none acc).out = .fail .closeBracket →
         scan toks (.arr :: st') n = .malformed .closing) ∧
       (∀ t, (arrLoopF fuel toks ptr none acc).out = .fail (.wantKey t) →
         scan toks (.arr :: st') n = .malformed .key))) := by
  intro fuel
  induction fuel with
  | zero =>
    refine ⟨fun toks ptr st n h1 h2 => ?_, fun toks ptr st' n acc => ?_,
      fun toks ptr st' n acc => ?_⟩ <;>
      exact ⟨fun v h => by simp [nextValF, objLoopF, arrLoopF] at h,
        fun h => by simp [nextValF, objLoopF, arrLoopF] at h,
        fun h => by simp [nextValF, objLoopF, arrLoopF] at h,
        fun h => by simp [nextValF, objLoopF, arrLoopF] at h,
        fun t h => by simp [nextValF, objLoopF, arrLoopF] at h⟩
  | succ fuel ih =>
    obtain ⟨ihV, ihO, ihA⟩ := ih
    refine ⟨fun toks ptr st n hst harr => ?_, fun toks ptr st' n acc => ?_,
      fun toks ptr st' n acc => ?_⟩
    · cases toks with
      | nil =>
        exact ⟨fun v h => by simp [nextValF] at h,
          fun h => by simp [nextValF] at h,
          fun h => by simp [nextValF] at h,
          fun h => by simp [nextValF] at h,
          fun t h => by simp [nextValF] at h⟩
      | cons t rest =>
        cases t
        case objStart =>
          have hIH := ihO rest ptr st n []
          exact ⟨fun v h => (scan_objStart rest st hst n).trans (hIH.1 v h),
            fun h => (scan_objStart rest st hst n).trans (hIH.2.1 h),
            fun h => (scan_objStart rest st hst n).trans (hIH.2.2.1 h),
            fun h => (scan_objStart rest st hst n).trans (hIH.2.2.2.1 h),
            fun t h => (scan_objStart rest st hst n).trans (hIH.2.2.2.2 t h)⟩
        case arrStart =>
          have hIH := ihA rest ptr st n []
          exact ⟨fun v h => (scan_arrStart rest st hst n).trans (hIH.1 v h),
            fun h => (scan_arrStart rest st hst n).trans (hIH.2.1 h),
            fun h => (scan_arrStart rest st hst n).trans (hIH.2.2.1 h),
            fun h => (scan_arrStart rest st hst n).trans (hIH.2.2.2.1 h),
            fun t h => (scan_arrStart rest st hst n).trans (hIH.2.2.2.2 t h)⟩
        case objEnd =>
          exact ⟨fun v h => by simp [nextValF] at h,
            fun h => by simp [nextValF] at h,
            fun h => scan_objEnd_val rest st hst n,
            fun h => by simp [nextValF] at h,
            fun t h => by simp [nextValF] at h⟩
        case arrEnd =>
          have hsa : st.head? ≠ some Frame.arr := fun ha => absurd rfl (harr ha)
          exact ⟨fun v h => by simp [nextValF] at h,
            fun h => by simp [nextValF] at h,
            fun h => by simp [nextValF] at h,
            fun h => scan_arrEnd_val rest st hst hsa n,
            fun t h => by simp [nextValF] at h⟩
        all_goals
          exact ⟨fun v h => by refine scan_scalar _ ?_ rest st hst n; rfl,
            fun h => by simp [nextValF] at h,
            fun h => by simp [nextValF] at h,
            fun h => by simp [nextValF] at h,
            fun t h => by simp [nextValF] at h⟩
    · cases toks with
      | nil =>
        exact ⟨fun v h => by simp [objLoopF] at h,
          fun h => rfl,
          fun h => by simp [objLoopF] at h,
          fun h => by simp [objLoopF] at h,
          fun t h => by simp [objLoopF] at h⟩
      | cons peeked rest =>
        cases peeked
        case objEnd =>
          exact ⟨fun v h => scan_key_objEnd rest st' n,
            fun h => by simp [objLoopF, doYield] at h,
            fun h => by simp [objLoopF, doYield] at h,
            fun h => by simp [objLoopF, doYield] at h,
            fun t h => by simp [objLoopF, doYield] at h⟩
        case str key =>
          have hV := ihV rest (ptr ++ [.key key]) (.objVal :: st') n
            (by simp) (by simp)
          cases hout : (nextValF fuel rest (ptr ++ [.key key]) none).out with
          | eof =>
            have hrest : rest = [] := ((asmRem fuel).1 rest _ none).2.2 hout
            subst hrest
            refine ⟨fun v h => ?_, fun h => ?_, fun h => ?_, fun h => ?_,
              fun t h => ?_⟩
            · simp [objLoopF, hout] at h
            · exact (scan_key_str key [] st' n).trans rfl
            · simp [objLoopF, hout] at h
            · simp [objLoopF, hout] at h
            · simp [objLoopF, hout] at h
          | fail e =>
            cases e
            · refine ⟨fun v h => ?_, fun h => ?_, fun h => ?_, fun h => ?_,
                fun t h => ?_⟩ <;>
                first
                | (exact (scan_key_str key rest st' n).trans (hV.2.1 hout))
                | simp [objLoopF, hout] at h
            · refine ⟨fun v h => ?_, fun h => ?_, fun h => ?_, fun h => ?_,
                fun t h => ?_⟩ <;>
                first
                | (exact (scan_key_str key rest st' n).trans (hV.2.2.1 hout))
                | simp [objLoopF, hout] at h
            · refine ⟨fun v h => ?_, fun h => ?_, fun h => ?_, fun h => ?_,
                fun t h => ?_⟩ <;>
                first
                | (exact (scan_key_str key rest st' n).trans (hV.2.2.2.1 hout))
                | simp [objLoopF, hout] at h
            · rename_i t0
              refine ⟨fun v h => ?_, fun h => ?_, fun h => ?_, fun h => ?_,
                fun t h => ?_⟩ <;>
                first
                | (exact (scan_key_str key rest st' n).trans (hV.2.2.2.2 t0 hout))
                | simp [objLoopF, hout] at h
          | fuelOut =>
            refine ⟨fun v h => ?_, fun h => ?_, fun h => ?_, fun h => ?_,
              fun t h => ?_⟩ <;> simp [objLoopF, hout] at h
          | done v1 ok =>
            cases ok with
            | false =>
              refine ⟨fun v h => ?_, fun h => ?_, fun h => ?_, fun h => ?_,
                fun t h => ?_⟩ <;> simp [objLoopF, hout] at h
            | true =>
              have hb1 : (nextValF fuel rest (ptr ++ [.key key]) none).budget = none :=
                ((asmUnb fuel).1 rest _).1
              have hchain : scan (Token.str key :: rest) (.objKey :: st') n =
                  scan (nextValF fuel rest (ptr ++ [.key key]) none).rem
                    (.objKey :: st') n := by
                rw [scan_key_str]
                simpa [popVal, countTop] using hV.1 v1 hout
              have hO := ihO (nextValF fuel rest (ptr ++ [.key key]) none).rem
                ptr st' n (mapInsert acc key v1)
              refine ⟨fun v h => ?_, fun h => ?_, fun h => ?_, fun h => ?_,
                fun t h => ?_⟩ <;>
                simp only [objLoopF, hout, hb1, if_pos] at h ⊢
              · exact hchain.trans (hO.1 v h)
              · exact hchain.trans (hO.2.1 h)
              · exact hchain.trans (hO.2.2.1 h)
              · exact hchain.trans (hO.2.2.2.1 h)
              · exact hchain.trans (hO.2.2.2.2 t h)
        all_goals
          exact ⟨fun v h => by simp [objLoopF] at h,
            fun h => by simp [objLoopF] at h,
            fun h => by simp [objLoopF] at h,
            fun h => by simp [objLoopF] at h,
            fun t h => scan_key_other _ (by simp [isScalarTok]) (by simp) rest st' n⟩
    · cases toks with
      | nil =>
        exact ⟨fun v h => by simp [arrLoopF] at h,
          fun h => rfl,
          fun h => by simp [arrLoopF] at h,
          fun h => by simp [arrLoopF] at h,
          fun t h => by simp [arrLoopF] at h⟩
      | cons peeked rest =>
        by_cases hpe : peeked = .arrEnd
        · subst hpe
          exact ⟨fun v h => scan_arrEnd_arr rest st' n,
            fun h => by simp [arrLoopF, doYield] at h,
            fun h => by simp [arrLoopF, doYield] at h,
            fun h => by simp [arrLoopF, doYield] at h,
            fun t h => by simp [arrLoopF, doYield] at h⟩
        · have hV := ihV (peeked :: rest) (ptr ++ [.idx (acc.length : ℤ)])
            (.arr :: st') n (by simp) (fun _ => by simpa using hpe)
          cases hout : (nextValF fuel (peeked :: rest) (ptr ++ [.idx (acc.length : ℤ)]) none).out with
          | eof =>
            have : peeked :: rest = [] := ((asmRem fuel).1 _ _ none).2.2 hout
            exact absurd this (by simp)
          | fail e =>
            cases e
            · refine ⟨fun v h => ?_, fun h => ?_, fun h => ?_, fun h => ?_,
                fun t h => ?_⟩ <;>
                first
                | (exact hV.2.1 hout)
                | simp [arrLoopF, if_neg hpe, hout] at h
            · refine ⟨fun v h => ?_, fun h => ?_, fun h => ?_, fun h => ?_,
                fun t h => ?_⟩ <;>
                first
                | (exact hV.2.2.1 hout)
                | simp [arrLoopF, if_neg hpe, hout] at h
            · refine ⟨fun v h => ?_, fun h => ?_, fun h => ?_, fun h => ?_,
                fun t h => ?_⟩ <;>
                first
                | (exact hV.2.2.2.1 hout)
                | simp [arrLoopF, if_neg hpe, hout] at h
            · rename_i t0
              refine ⟨fun v h => ?_, fun h => ?_, fun h => ?_, fun h => ?_,
                fun t h => ?_⟩ <;>
                first
                | (exact hV.2.2.2.2 t0 hout)
                | simp [arrLoopF, if_neg hpe, hout] at h
          | fuelOut =>
            refine ⟨fun v h => ?_, fun h => ?_, fun h => ?_, fun h => ?_,
              fun t h => ?_⟩ <;> simp [arrLoopF, if_neg hpe, hout] at h
          | done v1 ok =>
            cases ok with
            | false =>
              refine ⟨fun v h => ?_, fun h => ?_, fun h => ?_, fun h => ?_,
                fun t h => ?_⟩ <;> simp [arrLoopF, if_neg hpe, hout] at h
            | true =>
              have hb1 : (nextValF fuel (peeked :: rest)
                  (ptr ++ [.idx (acc.length : ℤ)]) none).budget = none :=
                ((asmUnb fuel).1 _ _).1
              have hchain : scan (peeked :: rest) (.arr :: st') n =
                  scan (nextValF fuel (peeked :: rest)
                    (ptr ++ [.idx (acc.length : ℤ)]) none).rem (.arr :: st') n := by
                simpa [popVal, countTop] using hV.1 v1 hout
              have hA := ihA (nextValF fuel (peeked :: rest)
                  (ptr ++ [.idx (acc.length : ℤ)]) none).rem ptr st' n (acc ++ [v1])
              refine ⟨fun v h => ?_, fun h => ?_, fun h => ?_, fun h => ?_,
                fun t h => ?_⟩ <;>
                simp only [arrLoopF, if_neg hpe, hout, hb1, if_pos] at h ⊢
              · exact hchain.trans (hA.1 v h)
              · exact hchain.trans (hA.2.1 h)
              · exact hchain.trans (hA.2.2.1 h)
              · exact hchain.trans (hA.2.2.2.1 h)
              · exact hchain.trans (hA.2.2.2.2 t h)

/-! ## Emissions of a completed value form a depth-first batch -/

/-- Soundness of the assembler's emissions against the specification's
depth-first batch shape, for the unlimited consumer: a completed `nextValue`
call emits exactly a `Batch`; a completed object/array loop emits the
concatenation of full child batches (in encounter order, with the keys and
indices it assigned) followed by the completed composite. -/
theorem batchSound : ∀ fuel : ℕ,
    (∀ toks ptr v, (nextValF fuel toks ptr none).out = .done v true →
      Batch ptr v (nextValF fuel toks ptr none).emits) ∧
    (∀ toks ptr acc v, (objLoopF fuel toks ptr none acc).out = .done v true →
      ∃ cs : List (String × JValue × List Emission),
        v = .obj (buildObj acc cs) ∧
        (objLoopF fuel toks ptr none acc).emits =
          (cs.map (fun c => c.2.2)).flatten ++ [(ptr, v)] ∧
        ∀ i (hi : i < cs.length),
          Batch (ptr ++ [.key (cs.get ⟨i, hi⟩).1]) (cs.get ⟨i, hi⟩).2.1
            (cs.get ⟨i, hi⟩).2.2) ∧
    (∀ toks ptr acc v, (arrLoopF fuel toks ptr none acc).out = .done v true →
      ∃ cs : List (JValue × List Emission),
        v = .arr (acc ++ cs.map Prod.fst) ∧
        (arrLoopF fuel toks ptr none acc).emits =
          (cs.map Prod.snd).flatten ++ [(ptr, v)] ∧
        ∀ i (hi : i < cs.length),
          Batch (ptr ++ [.idx ((acc.length + i : ℕ) : ℤ)]) (cs.get ⟨i, hi⟩).1
            (cs.get ⟨i, hi⟩).2) := by
  intro fuel
  induction fuel with
  | zero =>
    refine ⟨fun toks ptr v h => ?_, fun toks ptr acc v h => ?_,
      fun toks ptr acc v h => ?_⟩ <;> simp [nextValF, objLoopF, arrLoopF] at h
  | succ fuel ih =>
    obtain ⟨ihV, ihO, ihA⟩ := ih
    refine ⟨fun toks ptr v h => ?_, fun toks ptr acc v h => ?_,
      fun toks ptr acc v h => ?_⟩
    · cases toks with
      | nil => simp [nextValF] at h
      | cons t rest =>
        cases t
        case null =>
          have hv : v = .null := by simpa [nextValF, doYield] using h.symm
          subst hv
          exact Batch.scalar ptr .null trivial
        case jfalse =>
          have hv : v = .bool false := by simpa [nextValF, doYield] using h.symm
          subst hv
          exact Batch.scalar ptr (.bool false) trivial
        case jtrue =>
          have hv : v = .bool true := by simpa [nextValF, doYield] using h.symm
          subst hv
          exact Batch.scalar ptr (.bool true) trivial
        case str s =>
          have hv : v = .str s := by simpa [nextValF, doYield] using h.symm
          subst hv
          exact Batch.scalar ptr (.str s) trivial
        case num nt =>
          have hv : v = .num (NewNumber nt) := by
            simpa [nextValF, doYield] using h.symm
          subst hv
          exact Batch.scalar ptr (.num (NewNumber nt)) trivial
        case objEnd => simp [nextValF] at h
        case arrEnd => simp [nextValF] at h
        case objStart =>
          obtain ⟨cs, hv, he, hb⟩ := ihO rest ptr [] v h
          subst hv
          show Batch ptr _ (objLoopF fuel rest ptr none []).emits
          rw [he]
          exact Batch.obj ptr cs hb
        case arrStart =>
          obtain ⟨cs, hv, he, hb⟩ := ihA rest ptr [] v h
          simp only [List.nil_append] at hv
          subst hv
          simp only [List.length_nil, Nat.zero_add] at hb
          show Batch ptr _ (arrLoopF fuel rest ptr none []).emits
          rw [he]
          have := Batch.arr ptr cs hb
          simpa using this
    · cases toks with
      | nil => simp [objLoopF] at h
      | cons peeked rest =>
        cases peeked
        case objEnd =>
          have hv : v = .obj acc := by simpa [objLoopF, doYield] using h.symm
          subst hv
          exact ⟨[], rfl, by simp [objLoopF, doYield, buildObj],
            fun i hi => absurd hi (by simp)⟩
        case str key =>
          cases hout : (nextValF fuel rest (ptr ++ [.key key]) none).out with
          | eof => simp [objLoopF, hout] at h
          | fail e => simp [objLoopF, hout] at h
          | fuelOut => simp [objLoopF, hout] at h
          | done v1 ok =>
            cases ok with
            | false => simp [objLoopF, hout] at h
            | true =>
              have hb1 : (nextValF fuel rest (ptr ++ [.key key]) none).budget = none :=
                ((asmUnb fuel).1 rest _).1
              have hV1 : Batch (ptr ++ [.key key]) v1
                  (nextValF fuel rest (ptr ++ [.key key]) none).emits :=
                ihV rest (ptr ++ [.key key]) v1 hout
              simp only [objLoopF, hout, hb1, if_pos] at h
              obtain ⟨cs', hv, he, hb⟩ := ihO _ ptr (mapInsert acc key v1) v h
              refine ⟨(key, v1, (nextValF fuel rest (ptr ++ [.key key]) none).emits) :: cs',
                hv, ?_, ?_⟩
              · show (objLoopF (fuel+1) (Token.str key :: rest) ptr none acc).emits = _
                simp only [objLoopF, hout, hb1, if_pos]
                rw [he]
                simp [List.flatten_cons, List.append_assoc]
              · intro i hi
                cases i with
                | zero => exact hV1
                | succ j =>
                  exact hb j (by simpa using Nat.lt_of_succ_lt_succ hi)
        all_goals simp [objLoopF] at h
    · cases toks with
      | nil => simp [arrLoopF] at h
      | cons peeked rest =>
        by_cases hpe : peeked = .arrEnd
        · subst hpe
          have hv : v = .arr acc := by simpa [arrLoopF, doYield] using h.symm
          subst hv
          exact ⟨[], by simp, by simp [arrLoopF, doYield],
            fun i hi => absurd hi (by simp)⟩
        · cases hout : (nextValF fuel (peeked :: rest)
              (ptr ++ [.idx (acc.length : ℤ)]) none).out with
          | eof => simp [arrLoopF, if_neg hpe, hout] at h
          | fail e => simp [arrLoopF, if_neg hpe, hout] at h
          | fuelOut => simp [arrLoopF, if_neg hpe, hout] at h
          | done v1 ok =>
            cases ok with
            | false => simp [arrLoopF, if_neg hpe, hout] at h
            | true =>
              have hb1 : (nextValF fuel (peeked :: rest)
                  (ptr ++ [.idx (acc.length : ℤ)]) none).budget = none :=
                ((asmUnb fuel).1 _ _).1
              have hV1 : Batch (ptr ++ [.idx (acc.length : ℤ)]) v1
                  (nextValF fuel (peeked :: rest)
                    (ptr ++ [.idx (acc.length : ℤ)]) none).emits :=
                ihV _ _ v1 hout
              simp only [arrLoopF, if_neg hpe, hout, hb1, if_pos] at h
              obtain ⟨cs', hv, he, hb⟩ := ihA _ ptr (acc ++ [v1]) v h
              refine ⟨(v1, (nextValF fuel (peeked :: rest)
                  (ptr ++ [.idx (acc.length : ℤ)]) none).emits) :: cs', ?_, ?_, ?_⟩
              · rw [hv]
                simp
              · show (arrLoopF (fuel+1) (peeked :: rest) ptr none acc).emits = _
                simp only [arrLoopF, if_neg hpe, hout, hb1, if_pos]
                rw [he]
                simp [List.flatten_cons, List.append_assoc]
              · intro i hi
                cases i with
                | zero =>
                  simpa using hV1
                | succ j =>
                  have hj : j < cs'.length := by simpa using Nat.lt_of_succ_lt_succ hi
                  have hb' := hb j hj
                  have hnat : (acc ++ [v1]).length + j = acc.length + (j + 1) := by
                    simp
                    omega
                  rw [hnat] at hb'
                  exact hb'

/-! ## Properties of the canonical map and of batches -/

theorem mapGet_mapInsert_self (m : List (String × JValue)) (k : String)
    (v : JValue) : mapGet (mapInsert m k v) k = v := by
  induction m with
  | nil => simp [mapInsert, mapGet]
  | cons kv rest ih =>
    obtain ⟨k', v'⟩ := kv
    by_cases h1 : strLt k k' = true
    · simp [mapInsert, h1, mapGet]
    · by_cases h2 : k = k'
      · subst h2
        simp [mapInsert, strLt_irrefl, mapGet]
      · simp [mapInsert, h1, h2, mapGet, ih]

theorem mapGet_mapInsert_other (m : List (String × JValue)) (k k' : String)
    (v : JValue) (h : k ≠ k') : mapGet (mapInsert m k' v) k = mapGet m k := by
  induction m with
  | nil => simp [mapInsert, mapGet, h]
  | cons kv rest ih =>
    obtain ⟨k'', v''⟩ := kv
    by_cases h1 : strLt k' k'' = true
    · simp [mapInsert, h1, mapGet, h]
    · by_cases h2 : k' = k''
      · subst h2
        simp [mapInsert, h1, mapGet, h]
      · simp [mapInsert, h1, h2, mapGet, ih]

theorem buildObj_mapGet_of_no_key (cs : List (String × JValue × List Emission)) :
    ∀ (acc : List (String × JValue)) (k : String), (∀ c ∈ cs, c.1 ≠ k) →
    mapGet (buildObj acc cs) k = mapGet acc k := by
  induction cs with
  | nil => intro acc k _; rfl
  | cons c cs' ih =>
    intro acc k h
    show mapGet (buildObj (mapInsert acc c.1 c.2.1) cs') k = _
    rw [ih _ k (fun c' hc' => h c' (List.mem_cons_of_mem _ hc'))]
    exact mapGet_mapInsert_other _ _ _ _
      (fun he => (h c (List.mem_cons_self _ _)) he.symm)

theorem buildObj_mapGet_unique (cs : List (String × JValue × List Emission)) :
    ∀ (acc : List (String × JValue)) (i : ℕ) (hi : i < cs.length),
    (∀ j (hj : j < cs.length), (cs.get ⟨j, hj⟩).1 = (cs.get ⟨i, hi⟩).1 → j = i) →
    mapGet (buildObj acc cs) (cs.get ⟨i, hi⟩).1 = (cs.get ⟨i, hi⟩).2.1 := by
  induction cs with
  | nil => intro acc i hi; simp at hi
  | cons c cs' ih =>
    intro acc i hi huniq
    cases i with
    | zero =>
      show mapGet (buildObj (mapInsert acc c.1 c.2.1) cs') c.1 = c.2.1
      rw [buildObj_mapGet_of_no_key cs' _ c.1 ?_]
      · exact mapGet_mapInsert_self acc c.1 c.2.1
      · intro c' hc' hce
        obtain ⟨⟨j, hj⟩, hjg⟩ := List.mem_iff_get.mp hc'
        have hj1 : j + 1 < (c :: cs').length := by simp; omega
        have := huniq (j + 1) hj1 (by
          show (cs'.get ⟨j, hj⟩).1 = c.1
          rw [hjg]
          exact hce)
        simp at this
    | succ j =>
      have hj : j < cs'.length := by simpa using Nat.lt_of_succ_lt_succ hi
      show mapGet (buildObj (mapInsert acc c.1 c.2.1) cs') (cs'.get ⟨j, hj⟩).1 = _
      apply ih
      intro j' hj' hkey
      have hj'1 : j' + 1 < (c :: cs').length := by simp; omega
      have := huniq (j' + 1) hj'1 hkey
      omega

theorem Batch.root_last {p : Pointer} {v : JValue} {E : List Emission}
    (h : Batch p v E) : E.getLast? = some (p, v) := by
  cases h with
  | scalar p v hs => rfl
  | arr p cs hc => exact List.getLast?_concat _
  | obj p cs hc => exact List.getLast?_concat _

/-- Every emission of a batch carries a pointer extending the batch root's
pointer, and every emission other than the final one extends it strictly. -/
theorem Batch.ptr_ext {p : Pointer} {v : JValue} {E : List Emission}
    (h : Batch p v E) : ∀ e ∈ E, ∃ s, e.1 = p ++ s := by
  induction h with
  | scalar p v hs =>
    intro e he
    rw [List.mem_singleton] at he
    subst he
    exact ⟨[], by simp⟩
  | arr p cs hc ih =>
    intro e he
    rcases List.mem_append.mp he with hin | hlast
    · rw [List.mem_flatten] at hin
      obtain ⟨l, hl, hel⟩ := hin
      obtain ⟨i, hi, hg⟩ := List.mem_iff_getElem.mp hl
      have hi' : i < cs.length := by simpa using hi
      rw [List.getElem_map] at hg
      rw [← hg] at hel
      obtain ⟨s, hs⟩ := ih i hi' e hel
      exact ⟨.idx (i : ℤ) :: s, by rw [hs]; simp⟩
    · rw [List.mem_singleton] at hlast
      subst hlast
      exact ⟨[], by simp⟩
  | obj p cs hc ih =>
    intro e he
    rcases List.mem_append.mp he with hin | hlast
    · rw [List.mem_flatten] at hin
      obtain ⟨l, hl, hel⟩ := hin
      obtain ⟨i, hi, hg⟩ := List.mem_iff_getElem.mp hl
      have hi' : i < cs.length := by simpa using hi
      rw [List.getElem_map] at hg
      rw [← hg] at hel
      obtain ⟨s, hs⟩ := ih i hi' e hel
      exact ⟨.key (cs.get ⟨i, hi'⟩).1 :: s, by rw [hs]; simp⟩
    · rw [List.mem_singleton] at hlast
      subst hlast
      exact ⟨[], by simp⟩

/-- A batch emits its root pointer exactly once (all descendant emissions
strictly extend it). -/
theorem Batch.count_one {p : Pointer} {v : JValue} {E : List Emission}
    (h : Batch p v E) : (E.map Prod.fst).count p = 1 := by
  cases h with
  | scalar p v hs => simp
  | arr p cs hc =>
    rw [List.map_append, List.count_append]
    have hz : (((cs.map Prod.snd).flatten).map Prod.fst).count p = 0 := by
      rw [List.count_eq_zero]
      intro hmem
      rw [List.mem_map] at hmem
      obtain ⟨e, he, hep⟩ := hmem
      rw [List.mem_flatten] at he
      obtain ⟨l, hl, hel⟩ := he
      obtain ⟨i, hi, hg⟩ := List.mem_iff_getElem.mp hl
      have hi' : i < cs.length := by simpa using hi
      rw [List.getElem_map] at hg
      rw [← hg] at hel
      obtain ⟨s, hs⟩ := (hc i hi').ptr_ext e hel
      rw [hep] at hs
      have := congrArg List.length hs
      simp at this
    rw [hz]
    simp
  | obj p cs hc =>
    rw [List.map_append, List.count_append]
    have hz : (((cs.map (fun c => c.2.2)).flatten).map Prod.fst).count p = 0 := by
      rw [List.count_eq_zero]
      intro hmem
      rw [List.mem_map] at hmem
      obtain ⟨e, he, hep⟩ := hmem
      rw [List.mem_flatten] at he
      obtain ⟨l, hl, hel⟩ := he
      obtain ⟨i, hi, hg⟩ := List.mem_iff_getElem.mp hl
      have hi' : i < cs.length := by simpa using hi
      rw [List.getElem_map] at hg
      rw [← hg] at hel
      obtain ⟨s, hs⟩ := (hc i hi').ptr_ext e hel
      rw [hep] at hs
      have := congrArg List.length hs
      simp at this
    rw [hz]
    simp

/-- Under pairwise-distinct emission pointers, every emission of a batch is
located, relative to the batch root, by its own pointer suffix. -/
theorem Batch.locate {p : Pointer} {v : JValue} {E : List Emission}
    (h : Batch p v E) :
    (E.map Prod.fst).Nodup →
    ∀ e ∈ E, ∃ s, e.1 = p ++ s ∧ Pointer.Locate s v = .ok e.2 := by
  induction h with
  | scalar p v hs =>
    intro _ e he
    rw [List.mem_singleton] at he
    subst he
    exact ⟨[], by simp, rfl⟩
  | arr p cs hc ih =>
    intro hnd e he
    rcases List.mem_append.mp he with hin | hlast
    · rw [List.mem_flatten] at hin
      obtain ⟨l, hl, hel⟩ := hin
      obtain ⟨i, hi, hg⟩ := List.mem_iff_getElem.mp hl
      have hi' : i < cs.length := by simpa using hi
      rw [List.getElem_map] at hg
      rw [← hg] at hel
      have hndc : (((cs.get ⟨i, hi'⟩).2).map Prod.fst).Nodup := by
        refine hnd.sublist ?_
        rw [List.map_append]
        refine List.Sublist.trans ?_ (List.sublist_append_left _ _)
        refine List.Sublist.map _ ?_
        exact List.sublist_flatten_of_mem (List.mem_map_of_mem _ (List.get_mem cs _ _))
      obtain ⟨s', hs', hloc⟩ := ih i hi' hndc e hel
      refine ⟨.idx (i : ℤ) :: s', by rw [hs']; simp, ?_⟩
      have hcond : 0 ≤ (i : ℤ) ∧ (i : ℤ) < ((cs.map Prod.fst).length : ℤ) := by
        refine ⟨Int.ofNat_nonneg i, ?_⟩
        rw [List.length_map]
        exact_mod_cast hi'
      simp only [Pointer.Locate]
      rw [dif_pos hcond]
      simp only [List.get_eq_getElem, Int.toNat_natCast, List.getElem_map]
      exact hloc
    · rw [List.mem_singleton] at hlast
      subst hlast
      exact ⟨[], by simp, rfl⟩
  | obj p cs hc ih =>
    intro hnd e he
    rcases List.mem_append.mp he with hin | hlast
    · rw [List.mem_flatten] at hin
      obtain ⟨l, hl, hel⟩ := hin
      obtain ⟨i, hi, hg⟩ := List.mem_iff_getElem.mp hl
      have hi' : i < cs.length := by simpa using hi
      rw [List.getElem_map] at hg
      rw [← hg] at hel
      have hndc : (((cs.get ⟨i, hi'⟩).2.2).map Prod.fst).Nodup := by
        refine hnd.sublist ?_
        rw [List.map_append]
        refine List.Sublist.trans ?_ (List.sublist_append_left _ _)
        refine List.Sublist.map _ ?_
        exact List.sublist_flatten_of_mem (List.mem_map_of_mem _ (List.get_mem cs _ _))
      obtain ⟨s', hs', hloc⟩ := ih i hi' hndc e hel
      refine ⟨.key (cs.get ⟨i, hi'⟩).1 :: s', by rw [hs']; simp, ?_⟩
      have hroot : ∀ m (hm : m < cs.length),
          ((p ++ [.key (cs.get ⟨m, hm⟩).1], (cs.get ⟨m, hm⟩).2.1) : Emission) ∈
            (cs.get ⟨m, hm⟩).2.2 :=
        fun m hm => List.mem_of_mem_getLast? (by rw [(hc m hm).root_last]; rfl)
      have hnd2 : (((cs.map (fun c => c.2.2)).map (List.map Prod.fst)).flatten).Nodup := by
        rw [← List.map_flatten]
        rw [List.map_append] at hnd
        exact hnd.of_append_left
      have hpair := (List.nodup_flatten.mp hnd2).2
      rw [List.pairwise_iff_get] at hpair
      have hLget : ∀ m (hm : m < cs.length) (hm2 : m <
          ((cs.map (fun c => c.2.2)).map (List.map Prod.fst)).length),
          ((cs.map (fun c => c.2.2)).map (List.map Prod.fst)).get ⟨m, hm2⟩ =
            ((cs.get ⟨m, hm⟩).2.2).map Prod.fst := by
        intro m hm hm2
        simp [List.get_eq_getElem, List.getElem_map]
      have huniq : ∀ j (hj : j < cs.length),
          (cs.get ⟨j, hj⟩).1 = (cs.get ⟨i, hi'⟩).1 → j = i := by
        intro j hj hkey
        by_contra hne
        have hqi : (p ++ [.key (cs.get ⟨i, hi'⟩).1]) ∈
            ((cs.get ⟨i, hi'⟩).2.2).map Prod.fst :=
          List.mem_map_of_mem Prod.fst (hroot i hi')
        have hqj : (p ++ [.key (cs.get ⟨i, hi'⟩).1]) ∈
            ((cs.get ⟨j, hj⟩).2.2).map Prod.fst := by
          have := List.mem_map_of_mem Prod.fst (hroot j hj)
          rw [hkey] at this
          exact this
        have hjL : j < ((cs.map (fun c => c.2.2)).map (List.map Prod.fst)).length := by
          simpa using hj
        have hiL : i < ((cs.map (fun c => c.2.2)).map (List.map Prod.fst)).length := by
          simpa using hi'
        rcases Nat.lt_or_ge j i with hji | hij
        · have hd := hpair ⟨j, hjL⟩ ⟨i, hiL⟩ hji
          rw [hLget j hj hjL, hLget i hi' hiL] at hd
          exact hd hqj hqi
        · have hij' : i < j := Nat.lt_of_le_of_ne hij (fun he' => hne he'.symm)
          have hd := hpair ⟨i, hiL⟩ ⟨j, hjL⟩ hij'
          rw [hLget j hj hjL, hLget i hi' hiL] at hd
          exact hd hqi hqj
      have hkeyget : mapGet (buildObj [] cs) (cs.get ⟨i, hi'⟩).1 =
          (cs.get ⟨i, hi'⟩).2.1 :=
        buildObj_mapGet_unique cs [] i hi' huniq
      simp only [Pointer.Locate]
      rw [hkeyget]
      exact hloc
    · rw [List.mem_singleton] at hlast
      subst hlast
      exact ⟨[], by simp, rfl⟩

/-! ## Classification of a full `values` run -/

/-- Classification of a complete `values` run with the unlimited consumer:
on success the emissions decompose into one depth-first batch per top-level
value and the scanner reports a clean end with that count; each error kind
matches the scanner's verdict. -/
theorem valuesDir : ∀ (fuelL : ℕ) (toks : List Token) (n : ℕ),
    toks.length < fuelL →
    ((valuesF fuelL toks none).err = none →
      ∃ tops : List (JValue × List Emission),
        (valuesF fuelL toks none).emits = (tops.map Prod.snd).flatten ∧
        (∀ e ∈ tops, Batch [] e.1 e.2) ∧
        scan toks [] n = .clean (n + tops.length)) ∧
    ((valuesF fuelL toks none).err = some .truncated →
      scan toks [] n = .truncated) ∧
    ((valuesF fuelL toks none).err = some .closeBrace →
      scan toks [] n = .malformed .closing) ∧
    ((valuesF fuelL toks none).err = some .closeBracket →
      scan toks [] n = .malformed .closing) ∧
    (∀ t, (valuesF fuelL toks none).err = some (.wantKey t) →
      scan toks [] n = .malformed .key) := by
  intro fuelL
  induction fuelL with
  | zero => exact fun toks n h => absurd h (by omega)
  | succ fuelL ih =>
    intro toks n hlen
    have hs := (scanAgree (2 * toks.length + 1)).1 toks [] [] n (by simp) (by simp)
    cases hout : (nextValF (2 * toks.length + 1) toks [] none).out with
    | eof =>
      have htoks : toks = [] :=
        ((asmRem (2 * toks.length + 1)).1 toks [] none).2.2 hout
      subst htoks
      refine ⟨fun _ => ⟨[], by simp [valuesF, nextValF], by simp, by simp [scan]⟩,
        fun h => ?_, fun h => ?_, fun h => ?_, fun t h => ?_⟩ <;>
        simp [valuesF, nextValF] at h
    | fail e =>
      cases e
      · refine ⟨fun h => ?_, fun h => hs.2.1 hout, fun h => ?_, fun h => ?_,
          fun t h => ?_⟩ <;> simp [valuesF, hout] at h
      · refine ⟨fun h => ?_, fun h => ?_, fun h => hs.2.2.1 hout, fun h => ?_,
          fun t h => ?_⟩ <;> simp [valuesF, hout] at h
      · refine ⟨fun h => ?_, fun h => ?_, fun h => ?_, fun h => hs.2.2.2.1 hout,
          fun t h => ?_⟩ <;> simp [valuesF, hout] at h
      · rename_i t0
        refine ⟨fun h => ?_, fun h => ?_, fun h => ?_, fun h => ?_,
          fun t h => hs.2.2.2.2 t0 hout⟩ <;> simp [valuesF, hout] at h
    | fuelOut =>
      exact absurd hout
        ((asmFuel (2 * toks.length + 1)).1 toks [] none (by omega))
    | done v ok =>
      cases ok with
      | false =>
        exact absurd hout (((asmUnb (2 * toks.length + 1)).1 toks []).2 v)
      | true =>
        have hb1 : (nextValF (2 * toks.length + 1) toks [] none).budget = none :=
          ((asmUnb (2 * toks.length + 1)).1 toks []).1
        have hrem_lt :
            (nextValF (2 * toks.length + 1) toks [] none).rem.length < toks.length :=
          ((asmRem (2 * toks.length + 1)).1 toks [] none).2.1 v true hout
        have hscan1 : scan toks [] n =
            scan (nextValF (2 * toks.length + 1) toks [] none).rem [] (n + 1) := by
          simpa [popVal, countTop] using hs.1 v hout
        have hbatch : Batch [] v (nextValF (2 * toks.length + 1) toks [] none).emits :=
          (batchSound (2 * toks.length + 1)).1 toks [] v hout
        have ihr := ih (nextValF (2 * toks.length + 1) toks [] none).rem (n + 1)
          (by omega)
        refine ⟨fun h => ?_, fun h => ?_, fun h => ?_, fun h => ?_, fun t h => ?_⟩ <;>
          simp only [valuesF, hout, hb1, if_pos] at h ⊢
        · obtain ⟨tops', hem', hb', hscan'⟩ := ihr.1 h
          refine ⟨(v, (nextValF (2 * toks.length + 1) toks [] none).emits) :: tops',
            ?_, ?_, ?_⟩
          · simp only [List.map_cons, List.flatten_cons]
            rw [hem']
          · intro e he
            rcases List.mem_cons.mp he with rfl | he'
            · exact hbatch
            · exact hb' e he'
          · rw [hscan1, hscan']
            have harith : n + 1 + tops'.length = n + (tops'.length + 1) := by omega
            rw [harith]
            simp
        · exact hscan1.trans (ihr.2.1 h)
        · exact hscan1.trans (ihr.2.2.1 h)
        · exact hscan1.trans (ihr.2.2.2.1 h)
        · exact hscan1.trans (ihr.2.2.2.2 t h)

theorem topsCount (tops : List (JValue × List Emission))
    (hb : ∀ e ∈ tops, Batch [] e.1 e.2) :
    (((tops.map Prod.snd).flatten).map Prod.fst).count ([] : Pointer) =
      tops.length := by
  induction tops with
  | nil => simp
  | cons t ts ih =>
    simp only [List.map_cons, List.flatten_cons, List.map_append,
      List.count_append]
    rw [(hb t (List.mem_cons_self _ _)).count_one,
      ih (fun e he => hb e (List.mem_cons_of_mem _ he))]
    have hlc : (t :: ts).length = ts.length + 1 := rfl
    omega

/-- C2: for every well-formed input (a run with no error, fully consumed),
the emission sequence is the concatenation of one depth-first `Batch` per
top-level value: within each batch every descendant is emitted strictly
before its composite, children appear in encounter order, and the batch ends
with the top-level value itself at the empty pointer — so each descendant
emission falls under the top-level value being built.  The input contains
exactly `tops.length` top-level values (the scanner's independent count),
and exactly that many emissions carry the empty pointer. -/
theorem c2_depth_first_order (toks : List Token)
    (herr : (values toks none).err = none) :
    ∃ tops : List (JValue × List Emission),
      (values toks none).emits = (tops.map Prod.snd).flatten ∧
      (∀ e ∈ tops, Batch [] e.1 e.2) ∧
      ((values toks none).emits.map Prod.fst).count [] = tops.length ∧
      scan toks [] 0 = .clean tops.length := by
  obtain ⟨tops, hem, hb, hscan⟩ :=
    (valuesDir (toks.length + 1) toks 0 (by omega)).1 herr
  refine ⟨tops, hem, hb, ?_, by simpa using hscan⟩
  show ((valuesF (toks.length + 1) toks none).emits.map Prod.fst).count [] = _
  rw [hem]
  exact topsCount tops hb

theorem c2_witness :
    ∃ tops : List (JValue × List Emission),
      (values helloToks none).emits = (tops.map Prod.snd).flatten ∧
      (∀ e ∈ tops, Batch [] e.1 e.2) ∧
      ((values helloToks none).emits.map Prod.fst).count [] = tops.length ∧
      scan helloToks [] 0 = .clean tops.length :=
  c2_depth_first_order helloToks (by decide)

/-- C1, counterexample: with a duplicate object key, locating an emitted
pointer in the final top-level value does not return the emitted value.  On
`{"a": 1, "a": 2}` the run succeeds; the first emission is `(/a, 1)`, the
final top-level value maps `"a"` to `2`, and `Locate /a` on it returns `2`,
which differs from the emitted `1`. -/
theorem c1_counterexample :
    (values dupKeyToks none).err = none ∧
    (values dupKeyToks none).emits.head? =
      some ([.key "a"], .num (NewNumber (numTok "1" 1))) ∧
    (values dupKeyToks none).emits.getLast? =
      some ([], .obj [("a", .num (NewNumber (numTok "2" 2)))]) ∧
    Pointer.Locate [.key "a"] (.obj [("a", .num (NewNumber (numTok "2" 2)))]) =
      .ok (.num (NewNumber (numTok "2" 2))) ∧
    NewNumber (numTok "2" 2) ≠ NewNumber (numTok "1" 1) := by
  refine ⟨by decide, rfl, rfl, rfl, ?_⟩
  intro hq
  have hraw : (NewNumber (numTok "2" 2)).raw = (NewNumber (numTok "1" 1)).raw := by
    rw [hq]
  rw [NewNumber_raw, NewNumber_raw] at hraw
  simp [numTok] at hraw

/-- C1 as amended: on every error-free run, the emissions decompose into one
depth-first batch per top-level value, and for each top-level value whose
batch has pairwise-distinct emitted pointers — the condition the
duplicate-key counterexample forces, which holds whenever no object inside
that top-level value has two members with the same key — every
`(pointer, value)` pair emitted while building it is located by that pointer
in that final top-level value: `Locate` returns exactly the emitted value
with no error.  The distinctness condition is scoped to one batch because
pointers are only meaningful relative to the top-level value currently being
built: with several top-level values the empty pointer itself recurs, once
per document, across batches. -/
theorem c1_locate_amended (toks : List Token)
    (herr : (values toks none).err = none) :
    ∃ tops : List (JValue × List Emission),
      (values toks none).emits = (tops.map Prod.snd).flatten ∧
      ∀ e ∈ tops, Batch [] e.1 e.2 ∧
        (((e.2).map Prod.fst).Nodup →
          ∀ pv ∈ e.2, Pointer.Locate pv.1 e.1 = .ok pv.2) := by
  obtain ⟨tops, hem, hb, _⟩ :=
    (valuesDir (toks.length + 1) toks 0 (by omega)).1 herr
  refine ⟨tops, hem, fun e he => ⟨hb e he, fun hnde pv hpv => ?_⟩⟩
  obtain ⟨s, hsptr, hloc⟩ := (hb e he).locate hnde pv hpv
  rw [List.nil_append] at hsptr
  rw [hsptr]
  exact hloc

theorem c1_witness :
    ∃ tops : List (JValue × List Emission),
      (values (helloToks ++ [Token.null]) none).emits =
        (tops.map Prod.snd).flatten ∧
      ∀ e ∈ tops, Batch [] e.1 e.2 ∧
        (((e.2).map Prod.fst).Nodup →
          ∀ pv ∈ e.2, Pointer.Locate pv.1 e.1 = .ok pv.2) :=
  c1_locate_amended (helloToks ++ [Token.null]) (by decide)

/-- C5: with the consumer taking everything, `Values` reports the truncation
error `io.ErrUnexpectedEOF` exactly when the specification's scanner
classifies the stream as truncated — the input ends while one or more
composites are still open, including an object still awaiting the value for
a key; and whenever the scanner reports a clean end (in particular when the
stream ends at the very first token of a top-level value), the run reports
no error at all. -/
theorem c5_truncation_error (toks : List Token) :
    ((values toks none).err = some .truncated ↔ scan toks [] 0 = .truncated) ∧
    (∀ n, scan toks [] 0 = .clean n → (values toks none).err = none) := by
  have hd := valuesDir (toks.length + 1) toks 0 (by omega)
  constructor
  · constructor
    · exact hd.2.1
    · intro hscan
      cases herr : (values toks none).err with
      | none =>
        obtain ⟨tops, _, _, hclean⟩ := hd.1 herr
        rw [hscan] at hclean
        exact absurd hclean (by simp)
      | some e =>
        cases e
        · rfl
        · have := hd.2.2.1 herr
          rw [hscan] at this
          simp at this
        · have := hd.2.2.2.1 herr
          rw [hscan] at this
          simp at this
        · rename_i t
          have := hd.2.2.2.2 t herr
          rw [hscan] at this
          simp at this
  · intro n hscan
    cases herr : (values toks none).err with
    | none => rfl
    | some e =>
      cases e
      · have := hd.2.1 herr
        rw [hscan] at this
        simp at this
      · have := hd.2.2.1 herr
        rw [hscan] at this
        simp at this
      · have := hd.2.2.2.1 herr
        rw [hscan] at this
        simp at this
      · rename_i t
        have := hd.2.2.2.2 t herr
        rw [hscan] at this
        simp at this

theorem c5_witness :
    (values [Token.objStart] none).err = some .truncated :=
  (c5_truncation_error [Token.objStart]).1.mpr (by decide)

/-- C6: with the consumer taking everything, `Values` reports a
malformed-structure error exactly when the token sequence violates the
grammar, with the matching kind: a closing token where a value was expected
gives the unexpected-closing error, and a non-string non-closing token where
an object key was expected gives the expected-string-key error.  The error
is raised at the violating token itself: the last two conjuncts show the
error sites return immediately, deliver no emission, and are terminal (the
`values` loop stops on any error by construction). -/
theorem c6_malformed_structure (toks : List Token) :
    (((values toks none).err = some .closeBrace ∨
      (values toks none).err = some .closeBracket) ↔
      scan toks [] 0 = .malformed .closing) ∧
    ((∃ t, (values toks none).err = some (.wantKey t)) ↔
      scan toks [] 0 = .malformed .key) ∧
    (∀ (rest : List Token) (ptr : Pointer) (b : Budget),
      (nextValue (.objEnd :: rest) ptr b).out = .fail .closeBrace ∧
      (nextValue (.objEnd :: rest) ptr b).emits = [] ∧
      (nextValue (.objEnd :: rest) ptr b).rem = rest) ∧
    (∀ (rest : List Token) (ptr : Pointer) (b : Budget),
      (nextValue (.arrEnd :: rest) ptr b).out = .fail .closeBracket ∧
      (nextValue (.arrEnd :: rest) ptr b).emits = [] ∧
      (nextValue (.arrEnd :: rest) ptr b).rem = rest) := by
  have hd := valuesDir (toks.length + 1) toks 0 (by omega)
  refine ⟨⟨?_, ?_⟩, ⟨?_, ?_⟩, ?_, ?_⟩
  · rintro (h | h)
    · exact hd.2.2.1 h
    · exact hd.2.2.2.1 h
  · intro hscan
    cases herr : (values toks none).err with
    | none =>
      obtain ⟨_, _, _, hclean⟩ := hd.1 herr
      rw [hscan] at hclean
      simp at hclean
    | some e =>
      cases e
      · have := hd.2.1 herr
        rw [hscan] at this
        simp at this
      · exact Or.inl rfl
      · exact Or.inr rfl
      · rename_i t
        have := hd.2.2.2.2 t herr
        rw [hscan] at this
        simp at this
  · rintro ⟨t, h⟩
    exact hd.2.2.2.2 t h
  · intro hscan
    cases herr : (values toks none).err with
    | none =>
      obtain ⟨_, _, _, hclean⟩ := hd.1 herr
      rw [hscan] at hclean
      simp at hclean
    | some e =>
      cases e
      · have := hd.2.1 herr
        rw [hscan] at this
        simp at this
      · have := hd.2.2.1 herr
        rw [hscan] at this
        simp at this
      · have := hd.2.2.2.1 herr
        rw [hscan] at this
        simp at this
      · rename_i t
        exact ⟨t, rfl⟩
  · intro rest ptr b
    refine ⟨?_, ?_, ?_⟩ <;> simp [nextValue, nextValF]
  · intro rest ptr b
    refine ⟨?_, ?_, ?_⟩ <;> simp [nextValue, nextValF]

theorem c6_witness :
    (values [Token.objEnd] none).err = some AsmErr.closeBrace ∨
    (values [Token.objEnd] none).err = some AsmErr.closeBracket :=
  (c6_malformed_structure [Token.objEnd]).1.mpr (by decide)

end Jseq
